import Mathlib

/-!
# Verification of the `@upleveled/eslint-config-upleveled` install script

A shallow embedding of `bin/install.js` (the project-bootstrapping installer):
the script reads the project's `package.json`, conditionally adds SafeQL and
Stylelint dev-dependency requirements, merges them into the existing
`devDependencies` (new requirements win) and sorts the entries, builds a Yarn
`resolutions` map when no `pnpm-lock.yaml` is present, copies template files
that do not yet exist, appends missing `.gitignore` patterns, and deletes a
boilerplate `.eslintrc.json`.

JavaScript data is modelled as follows:

* A JavaScript object is a list of `(key, value)` entries in insertion order;
  parsed JSON objects have unique keys (a hypothesis where it matters).
* `{...a, ...b}` (object spread) keeps `a`'s key order, overrides values with
  `b`'s, and appends `b`'s new keys; `o[k] = v` updates in place or appends.
* `Object.entries(o).sort()` (no comparator) converts each entry `[k, v]` to
  the string `k + "," + v` and sorts by the code-unit order of those strings,
  using a stable sort; we model it with Mathlib's stable `insertionSort` over
  the corresponding character lists.
* `JSON.stringify` drops object entries whose value is `undefined`; entries
  whose value may be `undefined` are given `Option String` values and the
  serialized object keeps only the `some` entries.
* File contents are character lists; a missing file is `none`.
* The base requirement table (`peerDependencies` of the config's own
  `package.json`, a data file outside the embedded script) is kept abstract as
  a parameter `basePeerDependencies`.
-/

namespace InstallScript

/-- A JavaScript object with values of type `α`: entries in insertion order. -/
abbrev JsObj (α : Type) := List (String × α)

/-- Keys of an object, in insertion order. -/
def objKeys (o : JsObj α) : List String := o.map Prod.fst

/-- JavaScript `key in o` / property-existence test. -/
def hasKey (o : JsObj α) (k : String) : Bool := o.any (fun p => p.1 == k)

/-- JavaScript property read `o[k]`, `none` when the key is absent. -/
def getVal (o : JsObj α) (k : String) : Option α :=
  (o.find? (fun p => p.1 == k)).map Prod.snd

/-- The value override applied by `{...a, ...b}` to an entry of `a`: keep the
key, take `b`'s value when `b` has the key. -/
def overrideWith (b : JsObj α) (p : String × α) : String × α :=
  match getVal b p.1 with
  | some v => (p.1, v)
  | none => p

/-- JavaScript object spread `{...a, ...b}`: `a`'s keys in order with `b`'s
values where `b` has the key, then `b`'s remaining keys in order. -/
def spread (a b : JsObj α) : JsObj α :=
  a.map (overrideWith b) ++ b.filter (fun p => !hasKey a p.1)

/-- The in-place update `o[k] = v` performs on an entry whose key is `k`. -/
def updateEntry (k : String) (v : α) (p : String × α) : String × α :=
  if p.1 == k then (k, v) else p

/-- JavaScript assignment `o[k] = v`: update in place, or append a new key. -/
def setKey (o : JsObj α) (k : String) (v : α) : JsObj α :=
  if hasKey o k then o.map (updateEntry k v)
  else o ++ [(k, v)]

/-- A string object: values are strings (e.g. parsed `devDependencies`). -/
abbrev Obj := JsObj String

/-- An object whose values may be JavaScript `undefined`. -/
abbrev ObjU := JsObj (Option String)

/-- View a parsed JSON object as an object with defined values. -/
def asDefined (o : Obj) : ObjU := o.map (fun p => (p.1, some p.2))

/-- The entries `JSON.stringify` keeps: those with a defined value. -/
def definedEntries (o : ObjU) : Obj :=
  o.filterMap (fun p => p.2.map (fun v => (p.1, v)))

/-- The string `Array.prototype.sort`'s default comparator compares an entry
`[k, v]` by: `String([k, v]) = k + "," + v`, as a character list. -/
def entryChars (p : String × String) : List Char := p.1.data ++ ',' :: p.2.data

/-- Comparator of the default `Array.prototype.sort` on `Object.entries`. -/
def entryLe (p q : String × String) : Prop := entryChars p ≤ entryChars q

instance : DecidableRel entryLe :=
  fun p q => inferInstanceAs (Decidable (entryChars p ≤ entryChars q))

instance : IsTotal (String × String) entryLe :=
  ⟨fun p q => le_total (entryChars p) (entryChars q)⟩

instance : IsTrans (String × String) entryLe :=
  ⟨fun _ _ _ h₁ h₂ => le_trans h₁ h₂⟩

/-- `Object.entries(o).sort()`: stable sort by the default comparator. -/
def sortEntries (o : Obj) : Obj := List.insertionSort entryLe o

/-- The SafeQL packages added for Next.js / Postgres.js projects off Windows. -/
def safeqlPackageNames : List String := ["@ts-safeql/eslint-plugin", "libpg-query"]

/-- The Stylelint packages added for React / Next.js projects. -/
def stylelintPackageNames : List String :=
  ["postcss-styled-syntax", "stylelint", "stylelint-config-css-modules",
   "stylelint-config-recommended", "stylelint-config-recommended-scss"]

/-- `newDevDependenciesToInstall` after the two conditional blocks: start from
the config package's `peerDependencies`, add the SafeQL packages when the
project depends on `next` or `postgres` and the platform is not `win32`, and
add the Stylelint packages when it depends on `react-scripts` or `next`. -/
def newDevDependenciesToInstall (basePeerDependencies : Obj)
    (projectDependencies : Obj) (platform : String) : Obj :=
  let o := basePeerDependencies
  let o :=
    if (hasKey projectDependencies "next" || hasKey projectDependencies "postgres")
        && !(platform == "win32") then
      setKey (setKey o "@ts-safeql/eslint-plugin" "latest") "libpg-query" "latest"
    else o
  let o :=
    if hasKey projectDependencies "react-scripts" || hasKey projectDependencies "next" then
      setKey (setKey (setKey (setKey (setKey o
        "postcss-styled-syntax" "latest")
        "stylelint" "latest")
        "stylelint-config-css-modules" "latest")
        "stylelint-config-recommended" "latest")
        "stylelint-config-recommended-scss" "latest"
    else o
  o

/-- The merged `devDependencies`:
`Object.fromEntries(Object.entries({...existing, ...new}).sort())`. -/
def mergedDevDependencies (basePeerDependencies existingDevDependencies
    projectDependencies : Obj) (platform : String) : Obj :=
  sortEntries (spread existingDevDependencies
    (newDevDependenciesToInstall basePeerDependencies projectDependencies platform))

/-- The fixed list of ESLint packages pinned by the Yarn `resolutions` block. -/
def resolutionPackageNames : List String :=
  ["@typescript-eslint/eslint-plugin", "@typescript-eslint/parser",
   "eslint-plugin-import", "eslint-plugin-jest", "eslint-plugin-jsx-a11y",
   "eslint-plugin-react", "eslint-plugin-react-hooks"]

/-- The `reduce` building `{...resolutions, [packageName]: devDependencies[packageName]}`
for each fixed package name, starting from `{}`. -/
def resolutionPins (devDependencies : Obj) : ObjU :=
  resolutionPackageNames.foldl
    (fun acc name => setKey acc name (getVal devDependencies name)) []

/-- The `projectPackageJson.resolutions` object literal of the Yarn branch:
`{...existing, ...pins, '@typescript-eslint/utils': devDependencies['@typescript-eslint/parser']}`. -/
def newResolutions (existingResolutions : ObjU) (devDependencies : Obj) : ObjU :=
  setKey (spread existingResolutions (resolutionPins devDependencies))
    "@typescript-eslint/utils" (getVal devDependencies "@typescript-eslint/parser")

/-- The first `continue` of the template loop: do not copy the Stylelint
config for non-React / non-Next.js projects. -/
def skipStylelintTemplate (projectDependencies : Obj) (name : String) : Bool :=
  name == "stylelint.config.cjs"
    && !(hasKey projectDependencies "react-scripts"
         || hasKey projectDependencies "next")

/-- The template-copy loop: skip `stylelint.config.cjs` for non-React /
non-Next.js projects, skip existing destination files, else write the file. -/
def materializeTemplates (templates : List (String × List Char))
    (projectDependencies : Obj) (files : List (String × List Char)) :
    List (String × List Char) :=
  templates.foldl
    (fun fs t =>
      if skipStylelintTemplate projectDependencies t.1 then fs
      else if hasKey fs t.1 then fs
      else fs ++ [t])
    files

/-- The ignore patterns required by the `.gitignore` update loop. -/
def requiredIgnorePaths : List (List Char) := [".eslintcache".data, "*.tsbuildinfo".data]

/-- JavaScript `content.split('\n')` on a character list. -/
def splitNl : List Char → List (List Char)
  | [] => [[]]
  | c :: rest =>
    if c = '\n' then [] :: splitNl rest
    else
      match splitNl rest with
      | [] => [[c]]
      | l :: ls => (c :: l) :: ls

/-- JavaScript `lines.join('\n')` on character-list lines. -/
def joinNl : List (List Char) → List Char
  | [] => []
  | [l] => l
  | l :: ls => l ++ '\n' :: joinNl ls

/-- One iteration of the `.gitignore` loop: push the pattern unless present. -/
def addIgnorePath (lines : List (List Char)) (ignorePath : List Char) :
    List (List Char) :=
  if ignorePath ∈ lines then lines else lines ++ [ignorePath]

/-- `gitignoreContentLines` right after the `try`: the split file content, or
`[]` when reading threw (missing file, swallowed). -/
def initialGitignoreLines (content : Option (List Char)) : List (List Char) :=
  match content with
  | none => []
  | some s => splitNl s

/-- `gitignoreContentLines` after the update loop over the required patterns. -/
def gitignoreLines (content : Option (List Char)) : List (List Char) :=
  requiredIgnorePaths.foldl addIgnorePath (initialGitignoreLines content)

/-- The `.gitignore` stage: read the file if present (missing file swallowed,
lines stay `[]`), split into lines, append missing required patterns, write
back joined by newline, appending a newline if the last line is not empty. -/
def updateGitignore (content : Option (List Char)) : List Char :=
  joinNl (gitignoreLines content)
    ++ (if (gitignoreLines content).getLast? = some [] then [] else ['\n'])

/-- The characters stripped by JavaScript `String.prototype.trim`: the
ECMAScript WhiteSpace set (TAB, VT, FF, SP, NBSP, ZWNBSP and every Unicode
Space_Separator code point) plus the LineTerminator set (LF, CR, LS, PS). -/
def jsWhitespace (c : Char) : Bool :=
  c = ' ' || c = '\t' || c = '\n' || c = '\r' || c = '\x0b' || c = '\x0c'
    || c = '\u00A0' || c = '\uFEFF' || c = '\u2028' || c = '\u2029'
    || c = '\u1680' || (0x2000 ≤ c.toNat && c.toNat ≤ 0x200A)
    || c = '\u202F' || c = '\u205F' || c = '\u3000'

/-- JavaScript `content.trim()` on a character list. -/
def jsTrim (s : List Char) : List Char :=
  ((s.dropWhile jsWhitespace).reverse.dropWhile jsWhitespace).reverse

/-- The fixed boilerplate content of the default Next.js ESLint config. -/
def nextBoilerplate : List Char :=
  "\x7b\n  \"extends\": \"next/core-web-vitals\"\n\x7d".data

/-- The `.eslintrc.json` pruner: if reading succeeds and the trimmed content
equals the boilerplate, remove the file; a read error (missing file) is
swallowed. -/
def pruneLegacyConfig : Option (List Char) → Option (List Char)
  | none => none
  | some content =>
    if jsTrim content = nextBoilerplate then none else some content

/-- The fields of the project `package.json` the script reads or writes. -/
structure PackageJson where
  dependencies : Option Obj
  devDependencies : Option Obj
  resolutions : Option Obj
deriving DecidableEq

/-- The project state the script touches: the manifest, the existence of
`pnpm-lock.yaml`, the template-destination files, `.gitignore`, and
`.eslintrc.json`; `platform` is `process.platform`. -/
structure ProjectState where
  packageJson : PackageJson
  pnpmLockExists : Bool
  files : List (String × List Char)
  gitignore : Option (List Char)
  eslintrcJson : Option (List Char)
  platform : String
deriving DecidableEq

/-- One run of `bin/install.js` over a project state. `templates` is the
`(name, content)` enumeration of the bundled template directory and
`basePeerDependencies` the config package's `peerDependencies` table. -/
def runInstall (basePeerDependencies : Obj)
    (templates : List (String × List Char)) (s : ProjectState) : ProjectState :=
  let projectDependencies := s.packageJson.dependencies.getD []
  let devDependencies := mergedDevDependencies basePeerDependencies
    (s.packageJson.devDependencies.getD []) projectDependencies s.platform
  let projectUsesYarn := !s.pnpmLockExists
  let resolutions :=
    if projectUsesYarn then
      some (definedEntries (newResolutions
        (asDefined (s.packageJson.resolutions.getD [])) devDependencies))
    else s.packageJson.resolutions
  { packageJson :=
      { dependencies := s.packageJson.dependencies
        devDependencies := some devDependencies
        resolutions := resolutions }
    pnpmLockExists := s.pnpmLockExists
    files := materializeTemplates templates projectDependencies s.files
    gitignore := some (updateGitignore s.gitignore)
    eslintrcJson := pruneLegacyConfig s.eslintrcJson
    platform := s.platform }

/-- A key whose characters all sort above `','`: in particular every valid
npm package name (letters, digits, `-`, `_`, `.`, `@`, `/`) qualifies. -/
def goodKey (k : String) : Prop := ∀ c ∈ k.data, ',' < c

instance : DecidablePred goodKey :=
  fun k => inferInstanceAs (Decidable (∀ c ∈ k.data, ',' < c))

/-- A minimal concrete project state used to instantiate theorems. -/
def sampleState : ProjectState :=
  { packageJson := { dependencies := none, devDependencies := none, resolutions := none }
    pnpmLockExists := false
    files := []
    gitignore := none
    eslintrcJson := none
    platform := "linux" }

/-! ## Basic lemmas about the JavaScript object model -/

theorem hasKey_nil {k : String} : hasKey ([] : JsObj α) k = false := rfl

theorem hasKey_cons {p : String × α} {rest : JsObj α} {k : String} :
    hasKey (p :: rest) k = (p.1 == k || hasKey rest k) := by
  simp [hasKey]

theorem getVal_nil {k : String} : getVal ([] : JsObj α) k = none := rfl

theorem getVal_cons {p : String × α} {rest : JsObj α} {k : String} :
    getVal (p :: rest) k = if p.1 = k then some p.2 else getVal rest k := by
  rw [getVal, List.find?_cons]
  by_cases hk : p.1 = k
  · have hbeq : (p.1 == k) = true := by simp [hk]
    simp [hbeq, hk]
  · have hbeq : (p.1 == k) = false := by simp [hk]
    simp [hbeq, hk, getVal]

theorem hasKey_iff_mem {o : JsObj α} {k : String} :
    hasKey o k = true ↔ k ∈ objKeys o := by
  simp [hasKey, objKeys, List.any_eq_true, beq_iff_eq, List.mem_map]

theorem hasKey_of_mem {o : JsObj α} {p : String × α} (h : p ∈ o) :
    hasKey o p.1 = true :=
  hasKey_iff_mem.mpr (List.mem_map.mpr ⟨p, h, rfl⟩)

theorem getVal_eq_none_iff {o : JsObj α} {k : String} :
    getVal o k = none ↔ hasKey o k = false := by
  simp [getVal, hasKey, List.find?_eq_none, List.any_eq_true]

theorem hasKey_of_getVal_eq_some {o : JsObj α} {k : String} {v : α}
    (h : getVal o k = some v) : hasKey o k = true := by
  cases hh : hasKey o k
  · rw [getVal_eq_none_iff.mpr hh] at h
    exact Option.noConfusion h
  · rfl

theorem getVal_isSome_of_hasKey {o : JsObj α} {k : String}
    (h : hasKey o k = true) : ∃ v, getVal o k = some v := by
  cases hv : getVal o k with
  | none => rw [getVal_eq_none_iff.mp hv] at h; exact Bool.noConfusion h
  | some v => exact ⟨v, rfl⟩

theorem mem_of_getVal_eq_some {o : JsObj α} {k : String} {v : α}
    (h : getVal o k = some v) : (k, v) ∈ o := by
  induction o with
  | nil => exact Option.noConfusion h
  | cons p rest ih =>
    rw [getVal_cons] at h
    by_cases hk : p.1 = k
    · rw [if_pos hk] at h
      have : p = (k, v) := by
        cases p
        cases h
        simp_all
      exact this ▸ List.mem_cons_self _ _
    · rw [if_neg hk] at h
      exact List.mem_cons_of_mem _ (ih h)

theorem getVal_eq_some_of_mem {o : JsObj α} (hn : (objKeys o).Nodup)
    {k : String} {v : α} (h : (k, v) ∈ o) : getVal o k = some v := by
  induction o with
  | nil => cases h
  | cons p rest ih =>
    simp only [objKeys, List.map_cons, List.nodup_cons] at hn
    rw [getVal_cons]
    rcases List.mem_cons.mp h with h | h
    · rw [← h]
      simp
    · have hk : ¬ p.1 = k := fun he =>
        hn.1 (he ▸ List.mem_map.mpr ⟨(k, v), h, rfl⟩)
      rw [if_neg hk]
      exact ih hn.2 h

theorem getVal_append {a b : JsObj α} {k : String} :
    getVal (a ++ b) k =
      match getVal a k with
      | some v => some v
      | none => getVal b k := by
  induction a with
  | nil => simp [getVal_nil]
  | cons p rest ih =>
    rw [List.cons_append, getVal_cons, getVal_cons]
    by_cases hk : p.1 = k
    · simp [hk]
    · simp only [if_neg hk]
      exact ih

theorem getVal_append_left {a b : JsObj α} {k : String} {v : α}
    (h : getVal a k = some v) : getVal (a ++ b) k = some v := by
  rw [getVal_append, h]

theorem objKeys_perm {o o' : JsObj α} (h : o.Perm o') :
    (objKeys o).Perm (objKeys o') := h.map Prod.fst

theorem getVal_perm {o o' : JsObj α} (h : o.Perm o')
    (hn : (objKeys o).Nodup) (k : String) : getVal o k = getVal o' k := by
  have hn' : (objKeys o').Nodup := ((objKeys_perm h).nodup_iff).mp hn
  cases hv : getVal o k with
  | none =>
    cases hv' : getVal o' k with
    | none => rfl
    | some v =>
      have hh := hasKey_of_getVal_eq_some hv'
      rw [hasKey_iff_mem, ← (objKeys_perm h).mem_iff, ← hasKey_iff_mem] at hh
      rw [getVal_eq_none_iff.mp hv] at hh
      exact Bool.noConfusion hh
  | some v =>
    exact (getVal_eq_some_of_mem hn' (h.subset (mem_of_getVal_eq_some hv))).symm

/-! ## Lemmas about `setKey` -/

theorem updateEntry_eq_of_eq {k : String} {v : α} {p : String × α}
    (h : p.1 = k) : updateEntry k v p = (k, v) := by
  simp [updateEntry, h]

theorem updateEntry_eq_of_ne {k : String} {v : α} {p : String × α}
    (h : ¬ p.1 = k) : updateEntry k v p = p := by
  simp [updateEntry, h]

theorem fst_updateEntry {k : String} {v : α} {p : String × α} :
    (updateEntry k v p).1 = p.1 := by
  by_cases h : p.1 = k
  · rw [updateEntry_eq_of_eq h, h]
  · rw [updateEntry_eq_of_ne h]

theorem getVal_map_update_self {o : JsObj α} {k : String} {v : α}
    (hcond : hasKey o k = true) :
    getVal (o.map (updateEntry k v)) k = some v := by
  induction o with
  | nil => exact Bool.noConfusion hcond
  | cons p rest ih =>
    rw [List.map_cons, getVal_cons]
    by_cases hk : p.1 = k
    · rw [updateEntry_eq_of_eq hk]
      simp
    · rw [updateEntry_eq_of_ne hk, if_neg hk]
      have hbeq : (p.1 == k) = false := by simp [hk]
      rw [hasKey_cons, hbeq, Bool.false_or] at hcond
      exact ih hcond

theorem getVal_map_update_of_ne {o : JsObj α} {k k' : String} {v : α}
    (h : k' ≠ k) :
    getVal (o.map (updateEntry k v)) k' = getVal o k' := by
  induction o with
  | nil => rfl
  | cons p rest ih =>
    rw [List.map_cons, getVal_cons, getVal_cons]
    by_cases hk : p.1 = k
    · rw [updateEntry_eq_of_eq hk]
      have h1 : ¬ (k = k') := fun he => h he.symm
      have h2 : ¬ (p.1 = k') := fun he => h (he ▸ hk)
      rw [if_neg h1, if_neg h2, ih]
    · rw [updateEntry_eq_of_ne hk]
      by_cases hk' : p.1 = k'
      · rw [if_pos hk', if_pos hk']
      · rw [if_neg hk', if_neg hk', ih]

theorem objKeys_setKey {o : JsObj α} {k : String} {v : α} :
    objKeys (setKey o k v) =
      if hasKey o k then objKeys o else objKeys o ++ [k] := by
  unfold setKey
  split
  · simp only [objKeys, List.map_map]
    refine List.map_congr_left ?_
    intro p _
    exact fst_updateEntry
  · simp [objKeys]

theorem mem_objKeys_setKey {o : JsObj α} {k k' : String} {v : α} :
    k' ∈ objKeys (setKey o k v) ↔ k' ∈ objKeys o ∨ k' = k := by
  rw [objKeys_setKey]
  split
  · next hcond =>
    constructor
    · exact Or.inl
    · rintro (h | rfl)
      · exact h
      · exact hasKey_iff_mem.mp hcond
  · simp

theorem nodup_objKeys_setKey {o : JsObj α} {k : String} {v : α}
    (hn : (objKeys o).Nodup) : (objKeys (setKey o k v)).Nodup := by
  rw [objKeys_setKey]
  split
  · exact hn
  · next hcond =>
    simp only [List.nodup_append, List.nodup_cons]
    refine ⟨hn, by simp, ?_⟩
    intro x hx hmem
    simp only [List.mem_singleton] at hmem
    subst hmem
    exact hcond (hasKey_iff_mem.mpr hx)

theorem getVal_setKey_self {o : JsObj α} {k : String} {v : α} :
    getVal (setKey o k v) k = some v := by
  unfold setKey
  split
  · next hcond => exact getVal_map_update_self hcond
  · next hcond =>
    have h0 : getVal o k = none :=
      getVal_eq_none_iff.mpr (Bool.eq_false_iff.mpr hcond)
    rw [getVal_append, h0]
    show getVal [(k, v)] k = some v
    rw [getVal_cons, if_pos rfl]

theorem getVal_setKey_of_ne {o : JsObj α} {k k' : String} {v : α}
    (h : k' ≠ k) : getVal (setKey o k v) k' = getVal o k' := by
  unfold setKey
  split
  · exact getVal_map_update_of_ne h
  · rw [getVal_append]
    cases hv : getVal o k' with
    | some v' => rfl
    | none =>
      show getVal [(k, v)] k' = none
      rw [getVal_cons, if_neg (fun he : k = k' => h he.symm), getVal_nil]

theorem hasKey_setKey {o : JsObj α} {k k' : String} {v : α} :
    hasKey (setKey o k v) k' = (hasKey o k' || k' == k) := by
  have hiff : hasKey (setKey o k v) k' = true ↔ (hasKey o k' || k' == k) = true := by
    rw [hasKey_iff_mem, mem_objKeys_setKey, Bool.or_eq_true_iff, hasKey_iff_mem, beq_iff_eq]
  cases hh : (hasKey o k' || k' == k)
  · cases hs : hasKey (setKey o k v) k'
    · rfl
    · have hcontra := hiff.mp hs
      rw [hh] at hcontra
      exact Bool.noConfusion hcontra
  · exact hiff.mpr hh

/-! ## Lemmas about `spread` -/

theorem fst_overrideWith {b : JsObj α} {p : String × α} :
    (overrideWith b p).1 = p.1 := by
  cases hv : getVal b p.1 <;> simp [overrideWith, hv]

theorem snd_overrideWith {b : JsObj α} {p : String × α} :
    (overrideWith b p).2 = (getVal b p.1).getD p.2 := by
  cases hv : getVal b p.1 <;> simp [overrideWith, hv]

theorem overrideWith_ext {b : JsObj α} {p : String × α} :
    overrideWith b p = (p.1, (getVal b p.1).getD p.2) := by
  cases hv : getVal b p.1 <;> simp [overrideWith, hv]

theorem objKeys_map_overrideWith {a b : JsObj α} :
    objKeys (a.map (overrideWith b)) = objKeys a := by
  simp only [objKeys, List.map_map]
  exact List.map_congr_left (fun p _ => fst_overrideWith)

theorem mem_objKeys_spread {a b : JsObj α} {k : String} :
    k ∈ objKeys (spread a b) ↔ k ∈ objKeys a ∨ k ∈ objKeys b := by
  unfold spread
  rw [objKeys, List.map_append, ← objKeys, ← objKeys, objKeys_map_overrideWith,
    List.mem_append]
  constructor
  · rintro (h | h)
    · exact Or.inl h
    · rcases List.mem_map.mp h with ⟨q, hq, rfl⟩
      exact Or.inr (List.mem_map.mpr ⟨q, (List.mem_filter.mp hq).1, rfl⟩)
  · rintro (h | h)
    · exact Or.inl h
    · by_cases ha : k ∈ objKeys a
      · exact Or.inl ha
      · rcases List.mem_map.mp h with ⟨q, hq, rfl⟩
        refine Or.inr (List.mem_map.mpr ⟨q, List.mem_filter.mpr ⟨hq, ?_⟩, rfl⟩)
        have hfalse : hasKey a q.1 = false := by
          cases hk : hasKey a q.1
          · rfl
          · exact absurd (hasKey_iff_mem.mp hk) ha
        rw [hfalse]
        rfl

theorem hasKey_spread {a b : JsObj α} {k : String} :
    hasKey (spread a b) k = (hasKey a k || hasKey b k) := by
  cases hh : (hasKey a k || hasKey b k)
  · cases hs : hasKey (spread a b) k
    · rfl
    · rcases Bool.or_eq_false_iff.mp hh with ⟨h1, h2⟩
      rcases mem_objKeys_spread.mp (hasKey_iff_mem.mp hs) with hm | hm
      · rw [hasKey_iff_mem.mpr hm] at h1
        exact Bool.noConfusion h1
      · rw [hasKey_iff_mem.mpr hm] at h2
        exact Bool.noConfusion h2
  · rcases Bool.or_eq_true_iff.mp hh with h | h
    · exact hasKey_iff_mem.mpr (mem_objKeys_spread.mpr (Or.inl (hasKey_iff_mem.mp h)))
    · exact hasKey_iff_mem.mpr (mem_objKeys_spread.mpr (Or.inr (hasKey_iff_mem.mp h)))

theorem getVal_filter_of_not_hasKey {a b : JsObj α} {k : String}
    (h : hasKey a k = false) :
    getVal (b.filter (fun p => !hasKey a p.1)) k = getVal b k := by
  induction b with
  | nil => rfl
  | cons q rest ih =>
    rw [List.filter_cons]
    by_cases hq : q.1 = k
    · have hkeep : (!hasKey a q.1) = true := by rw [hq, h]; rfl
      rw [if_pos hkeep, getVal_cons, getVal_cons, if_pos hq, if_pos hq]
    · split
      · rw [getVal_cons, if_neg hq, getVal_cons, if_neg hq]
        exact ih
      · rw [getVal_cons, if_neg hq]
        exact ih

theorem getVal_filter_of_hasKey {a b : JsObj α} {k : String}
    (h : hasKey a k = true) :
    getVal (b.filter (fun p => !hasKey a p.1)) k = none := by
  rw [getVal_eq_none_iff]
  cases hs : hasKey (List.filter (fun p => !hasKey a p.1) b) k
  · rfl
  · rcases List.mem_map.mp (hasKey_iff_mem.mp hs) with ⟨q, hq, rfl⟩
    rcases List.mem_filter.mp hq with ⟨_, hnk⟩
    rw [h] at hnk
    exact absurd hnk (by simp)

theorem getVal_map_overrideWith {a b : JsObj α} {k : String} {v : α}
    (h : getVal a k = some v) :
    getVal (a.map (overrideWith b)) k =
      match getVal b k with
      | some w => some w
      | none => some v := by
  induction a with
  | nil => exact Option.noConfusion h
  | cons p rest ih =>
    rw [getVal_cons] at h
    rw [List.map_cons, getVal_cons, fst_overrideWith]
    by_cases hp : p.1 = k
    · rw [if_pos hp] at h ⊢
      injection h with h2
      rw [overrideWith_ext, hp]
      cases hb : getVal b k
      · simp [h2]
      · simp
    · rw [if_neg hp] at h ⊢
      exact ih h

theorem getVal_spread {a b : JsObj α} {k : String} :
    getVal (spread a b) k = if hasKey b k then getVal b k else getVal a k := by
  unfold spread
  rw [getVal_append]
  cases ha : hasKey a k
  · have hmap : getVal (a.map (overrideWith b)) k = none := by
      rw [getVal_eq_none_iff]
      cases hs : hasKey (a.map (overrideWith b)) k
      · rfl
      · have hmem := hasKey_iff_mem.mp hs
        rw [objKeys_map_overrideWith] at hmem
        rw [hasKey_iff_mem.mpr hmem] at ha
        exact Bool.noConfusion ha
    rw [hmap]
    show getVal (b.filter (fun p => !hasKey a p.1)) k = _
    rw [getVal_filter_of_not_hasKey ha]
    cases hb : hasKey b k
    · rw [if_neg (by simp)]
      rw [getVal_eq_none_iff.mpr ha, getVal_eq_none_iff.mpr hb]
    · rw [if_pos rfl]
  · rcases getVal_isSome_of_hasKey ha with ⟨v, hv⟩
    rw [getVal_map_overrideWith hv]
    cases hb : getVal b k
    · have hbk : hasKey b k = false := getVal_eq_none_iff.mp hb
      simp [hbk, hv]
    · have hbk : hasKey b k = true := hasKey_of_getVal_eq_some hb
      simp [hbk, hb]

theorem nodup_objKeys_spread {a b : JsObj α} (ha : (objKeys a).Nodup)
    (hb : (objKeys b).Nodup) : (objKeys (spread a b)).Nodup := by
  unfold spread
  rw [objKeys, List.map_append, ← objKeys, ← objKeys, objKeys_map_overrideWith,
    List.nodup_append]
  refine ⟨ha, ?_, ?_⟩
  · exact ((List.filter_sublist b).map Prod.fst).nodup hb
  · intro x hx hx2
    rcases List.mem_map.mp hx2 with ⟨q, hq, hqx⟩
    rcases List.mem_filter.mp hq with ⟨_, hnk⟩
    rw [hqx] at hnk
    rw [hasKey_iff_mem.mpr hx] at hnk
    exact absurd hnk (by simp)

theorem spread_eq_self {m n : JsObj α} (hm : (objKeys m).Nodup)
    (hvals : ∀ k, hasKey n k = true → getVal m k = getVal n k)
    (hkeys : ∀ k, hasKey n k = true → hasKey m k = true) :
    spread m n = m := by
  unfold spread
  have hfilter : n.filter (fun p => !hasKey m p.1) = [] := by
    rw [List.filter_eq_nil_iff]
    intro p hp
    rw [hkeys p.1 (hasKey_of_mem hp)]
    simp
  rw [hfilter, List.append_nil]
  have hpt : ∀ p ∈ m, overrideWith n p = p := by
    intro p hp
    cases hv : getVal n p.1 with
    | none => rw [overrideWith_ext, hv]; rfl
    | some v =>
      have h1 : getVal m p.1 = some p.2 := getVal_eq_some_of_mem hm hp
      have h2 := hvals p.1 (hasKey_of_getVal_eq_some hv)
      rw [h1, hv] at h2
      injection h2 with h3
      rw [overrideWith_ext, hv]
      rw [← h3]
      rfl
  calc List.map (overrideWith n) m = List.map id m := List.map_congr_left hpt
    _ = m := List.map_id m

theorem overrideWith_comp {b c : JsObj α} {p : String × α} :
    overrideWith c (overrideWith b p) = overrideWith (spread b c) p := by
  rw [@overrideWith_ext _ c (overrideWith b p), fst_overrideWith,
    snd_overrideWith, @overrideWith_ext _ (spread b c) p, getVal_spread]
  cases hc : getVal c p.1
  · have hkc : hasKey c p.1 = false := getVal_eq_none_iff.mp hc
    simp [hkc]
  · have hkc : hasKey c p.1 = true := hasKey_of_getVal_eq_some hc
    simp [hkc, hc]

theorem spread_assoc {a b c : JsObj α} :
    spread (spread a b) c = spread a (spread b c) := by
  have h1 : (spread a b).map (overrideWith c)
      = a.map (overrideWith (spread b c))
        ++ (b.filter (fun p => !hasKey a p.1)).map (overrideWith c) := by
    rw [spread, List.map_append, List.map_map]
    congr 1
    exact List.map_congr_left (fun p _ => overrideWith_comp)
  have h2 : c.filter (fun p => !hasKey (spread a b) p.1)
      = c.filter (fun p => !hasKey a p.1 && !hasKey b p.1) := by
    refine List.filter_congr (fun p _ => ?_)
    rw [hasKey_spread, Bool.not_or]
  have h3 : (spread b c).filter (fun p => !hasKey a p.1)
      = (b.filter (fun p => !hasKey a p.1)).map (overrideWith c)
        ++ c.filter (fun p => !hasKey a p.1 && !hasKey b p.1) := by
    rw [spread, List.filter_append]
    congr 1
    · rw [List.filter_map]
      congr 1
      refine List.filter_congr (fun p _ => ?_)
      simp [Function.comp, fst_overrideWith]
    · rw [List.filter_filter]
  calc spread (spread a b) c
      = (spread a b).map (overrideWith c)
        ++ c.filter (fun p => !hasKey (spread a b) p.1) := rfl
    _ = (a.map (overrideWith (spread b c))
          ++ (b.filter (fun p => !hasKey a p.1)).map (overrideWith c))
        ++ c.filter (fun p => !hasKey a p.1 && !hasKey b p.1) := by rw [h1, h2]
    _ = a.map (overrideWith (spread b c))
        ++ ((b.filter (fun p => !hasKey a p.1)).map (overrideWith c)
          ++ c.filter (fun p => !hasKey a p.1 && !hasKey b p.1)) := by
        rw [List.append_assoc]
    _ = a.map (overrideWith (spread b c))
        ++ (spread b c).filter (fun p => !hasKey a p.1) := by rw [h3]
    _ = spread a (spread b c) := rfl

theorem setKey_eq_spread_single {o : JsObj α} {k : String} {v : α} :
    setKey o k v = spread o [(k, v)] := by
  have hget : ∀ x : String, getVal [(k, v)] x = if k = x then some v else none := by
    intro x
    rw [getVal_cons, getVal_nil]
  unfold setKey spread
  cases hk : hasKey o k
  · rw [if_neg (by simp [hk])]
    have hmap : o.map (overrideWith [(k, v)]) = o := by
      have hpt : ∀ p ∈ o, overrideWith [(k, v)] p = p := by
        intro p hp
        have hne : ¬ k = p.1 := by
          intro he
          have hmem : hasKey o k = true := by
            rw [hasKey_iff_mem, he]
            exact List.mem_map.mpr ⟨p, hp, rfl⟩
          rw [hmem] at hk
          exact Bool.noConfusion hk
        rw [overrideWith_ext, hget p.1, if_neg hne]
        rfl
      calc o.map (overrideWith [(k, v)]) = o.map id := List.map_congr_left hpt
        _ = o := List.map_id o
    rw [hmap]
    congr 1
    rw [List.filter_cons, if_pos (by simp [hk])]
    rfl
  · rw [if_pos rfl]
    have hfilter : [(k, v)].filter (fun p => !hasKey o p.1) = [] := by
      rw [List.filter_cons, if_neg (by simp [hk])]
      rfl
    rw [hfilter, List.append_nil]
    refine List.map_congr_left (fun p _ => ?_)
    by_cases hp : p.1 = k
    · rw [updateEntry_eq_of_eq hp, overrideWith_ext, hget p.1, if_pos hp.symm, hp]
      rfl
    · rw [updateEntry_eq_of_ne hp, overrideWith_ext, hget p.1,
        if_neg (fun he => hp he.symm)]
      rfl

/-! ## Lemmas about the entry sort -/

theorem bool_eq_of_iff {a b : Bool} (h : a = true ↔ b = true) : a = b := by
  cases a <;> cases b <;> simp_all

theorem sortEntries_perm (o : Obj) : (sortEntries o).Perm o :=
  List.perm_insertionSort entryLe o

theorem sortEntries_sorted (o : Obj) : List.Pairwise entryLe (sortEntries o) :=
  List.sorted_insertionSort entryLe o

theorem sortEntries_eq_of_sorted {o : Obj} (h : List.Pairwise entryLe o) :
    sortEntries o = o :=
  List.Sorted.insertionSort_eq h

theorem nodup_objKeys_sortEntries {o : Obj} (hn : (objKeys o).Nodup) :
    (objKeys (sortEntries o)).Nodup :=
  ((objKeys_perm (sortEntries_perm o)).nodup_iff).mpr hn

theorem getVal_sortEntries {o : Obj} (hn : (objKeys o).Nodup) (k : String) :
    getVal (sortEntries o) k = getVal o k :=
  getVal_perm (sortEntries_perm o) (nodup_objKeys_sortEntries hn) k

theorem hasKey_sortEntries {o : Obj} {k : String} :
    hasKey (sortEntries o) k = hasKey o k := by
  refine bool_eq_of_iff ?_
  rw [hasKey_iff_mem, hasKey_iff_mem, (objKeys_perm (sortEntries_perm o)).mem_iff]

theorem comma_free_prefix_eq {a : List Char} :
    ∀ {b x y : List Char}, (∀ c ∈ a, ',' < c) → (∀ c ∈ b, ',' < c) →
      a ++ ',' :: x = b ++ ',' :: y → a = b := by
  induction a with
  | nil =>
    intro b x y _ hb h
    cases b with
    | nil => rfl
    | cons d bs =>
      injection h with h1 _
      have hd := hb d (List.mem_cons_self _ _)
      rw [← h1] at hd
      exact absurd hd (lt_irrefl _)
  | cons c as ih =>
    intro b x y ha hb h
    cases b with
    | nil =>
      injection h with h1 _
      have hc := ha c (List.mem_cons_self _ _)
      rw [h1] at hc
      exact absurd hc (lt_irrefl _)
    | cons d bs =>
      injection h with h1 h2
      have htail : as = bs :=
        ih (fun e he => ha e (List.mem_cons_of_mem _ he))
          (fun e he => hb e (List.mem_cons_of_mem _ he)) h2
      rw [h1, htail]

theorem lex_key_lt {a : List Char} :
    ∀ {b x y : List Char}, (∀ c ∈ a, ',' < c) → (∀ c ∈ b, ',' < c) → a ≠ b →
      a ++ ',' :: x < b ++ ',' :: y → a < b := by
  induction a with
  | nil =>
    intro b x y _ _ hne _
    cases b with
    | nil => exact absurd rfl hne
    | cons d bs => exact List.Lex.nil
  | cons c as ih =>
    intro b x y ha hb hne h
    cases b with
    | nil =>
      cases h with
      | rel hr => exact absurd hr (asymm (ha c (List.mem_cons_self _ _)))
      | cons h' => exact absurd (ha ',' (List.mem_cons_self _ _)) (lt_irrefl _)
    | cons d bs =>
      cases h with
      | rel hr => exact List.Lex.rel hr
      | cons h' =>
        have hne' : as ≠ bs := fun he => hne (by rw [he])
        exact List.Lex.cons
          (ih (fun e he => ha e (List.mem_cons_of_mem _ he))
            (fun e he => hb e (List.mem_cons_of_mem _ he)) hne' h')

theorem sorted_keys_of_sorted_entries {m : Obj}
    (hs : List.Pairwise entryLe m) (hn : (objKeys m).Nodup)
    (hg : ∀ k ∈ objKeys m, goodKey k) :
    List.Pairwise (fun a b : String => a.data < b.data) (objKeys m) := by
  rw [objKeys, List.pairwise_map]
  have hnd : List.Pairwise (fun p q : String × String => p.1 ≠ q.1) m := by
    rw [objKeys, List.Nodup] at hn
    exact List.pairwise_map.mp hn
  refine List.Pairwise.imp_of_mem (fun {p q} hp hq hr => ?_) (hs.and hnd)
  obtain ⟨h1, h2⟩ := hr
  have hgp : goodKey p.1 := hg p.1 (List.mem_map.mpr ⟨p, hp, rfl⟩)
  have hgq : goodKey q.1 := hg q.1 (List.mem_map.mpr ⟨q, hq, rfl⟩)
  have hne : p.1.data ≠ q.1.data := fun he => h2 (by
    cases hpk : p.1
    cases hqk : q.1
    rw [hpk, hqk] at he
    simp_all)
  simp only [entryLe, entryChars] at h1
  rcases lt_or_eq_of_le h1 with hlt | heq
  · exact lex_key_lt hgp hgq hne hlt
  · exact absurd (comma_free_prefix_eq hgp hgq heq) hne

theorem sorted_objKeys_sortEntries {o : Obj} (hn : (objKeys o).Nodup)
    (hg : ∀ k ∈ objKeys o, goodKey k) :
    List.Pairwise (fun a b : String => a.data < b.data)
      (objKeys (sortEntries o)) :=
  sorted_keys_of_sorted_entries (sortEntries_sorted o)
    (nodup_objKeys_sortEntries hn)
    (fun k hk => hg k ((objKeys_perm (sortEntries_perm o)).mem_iff.mp hk))

/-! ## Lemmas about the computed requirements and the merge -/

theorem mem_objKeys_newDevDeps {base deps : Obj} {platform : String} {k : String}
    (h : k ∈ objKeys (newDevDependenciesToInstall base deps platform)) :
    k ∈ objKeys base ∨ k ∈ safeqlPackageNames ∨ k ∈ stylelintPackageNames := by
  simp only [newDevDependenciesToInstall] at h
  split at h <;> split at h <;>
    (try simp only [mem_objKeys_setKey] at h) <;>
    simp only [safeqlPackageNames, stylelintPackageNames, List.mem_cons,
      List.mem_singleton, List.not_mem_nil] <;>
    tauto

theorem nodup_objKeys_newDevDeps {base deps : Obj} {platform : String}
    (hn : (objKeys base).Nodup) :
    (objKeys (newDevDependenciesToInstall base deps platform)).Nodup := by
  simp only [newDevDependenciesToInstall]
  split <;> split <;> (repeat apply nodup_objKeys_setKey) <;> exact hn

theorem goodKey_of_mem_newDevDeps {base deps : Obj} {platform : String}
    {k : String} (hgb : ∀ k' ∈ objKeys base, goodKey k')
    (h : k ∈ objKeys (newDevDependenciesToInstall base deps platform)) :
    goodKey k := by
  rcases mem_objKeys_newDevDeps h with hb | hs | hs
  · exact hgb k hb
  · fin_cases hs <;> decide
  · fin_cases hs <;> decide

theorem nodup_objKeys_mergedDevDeps {base existing deps : Obj} {platform : String}
    (hne : (objKeys existing).Nodup) (hnb : (objKeys base).Nodup) :
    (objKeys (mergedDevDependencies base existing deps platform)).Nodup :=
  nodup_objKeys_sortEntries
    (nodup_objKeys_spread hne (nodup_objKeys_newDevDeps hnb))

theorem getVal_mergedDevDeps {base existing deps : Obj} {platform : String}
    (hne : (objKeys existing).Nodup) (hnb : (objKeys base).Nodup) (k : String) :
    getVal (mergedDevDependencies base existing deps platform) k =
      if hasKey (newDevDependenciesToInstall base deps platform) k
      then getVal (newDevDependenciesToInstall base deps platform) k
      else getVal existing k := by
  unfold mergedDevDependencies
  rw [getVal_sortEntries
    (nodup_objKeys_spread hne (nodup_objKeys_newDevDeps hnb)), getVal_spread]

theorem hasKey_mergedDevDeps {base existing deps : Obj} {platform : String}
    {k : String} :
    hasKey (mergedDevDependencies base existing deps platform) k
      = (hasKey existing k
          || hasKey (newDevDependenciesToInstall base deps platform) k) := by
  unfold mergedDevDependencies
  rw [hasKey_sortEntries, hasKey_spread]

theorem goodKeys_spread_newDevDeps {base existing deps : Obj} {platform : String}
    (hge : ∀ k ∈ objKeys existing, goodKey k)
    (hgb : ∀ k ∈ objKeys base, goodKey k) :
    ∀ k ∈ objKeys (spread existing
      (newDevDependenciesToInstall base deps platform)), goodKey k := by
  intro k hk
  rcases mem_objKeys_spread.mp hk with h | h
  · exact hge k h
  · exact goodKey_of_mem_newDevDeps hgb h

theorem sorted_objKeys_mergedDevDeps {base existing deps : Obj}
    {platform : String}
    (hne : (objKeys existing).Nodup) (hnb : (objKeys base).Nodup)
    (hge : ∀ k ∈ objKeys existing, goodKey k)
    (hgb : ∀ k ∈ objKeys base, goodKey k) :
    List.Pairwise (fun a b : String => a.data < b.data)
      (objKeys (mergedDevDependencies base existing deps platform)) :=
  sorted_objKeys_sortEntries
    (nodup_objKeys_spread hne (nodup_objKeys_newDevDeps hnb))
    (goodKeys_spread_newDevDeps hge hgb)

theorem mergedDevDeps_idem {base existing deps : Obj} {platform : String}
    (hne : (objKeys existing).Nodup) (hnb : (objKeys base).Nodup) :
    mergedDevDependencies base
      (mergedDevDependencies base existing deps platform) deps platform
      = mergedDevDependencies base existing deps platform := by
  have habs : spread (mergedDevDependencies base existing deps platform)
      (newDevDependenciesToInstall base deps platform)
      = mergedDevDependencies base existing deps platform := by
    refine spread_eq_self (nodup_objKeys_mergedDevDeps hne hnb)
      (fun k hk => ?_) (fun k hk => ?_)
    · rw [getVal_mergedDevDeps hne hnb, if_pos hk]
    · rw [hasKey_mergedDevDeps, hk, Bool.or_true]
  show sortEntries (spread (mergedDevDependencies base existing deps platform)
    (newDevDependenciesToInstall base deps platform)) = _
  rw [habs]
  exact sortEntries_eq_of_sorted
    (sortEntries_sorted
      (spread existing (newDevDependenciesToInstall base deps platform)))

/-! ## Lemmas about `splitNl` and `joinNl` -/

theorem splitNl_ne_nil {s : List Char} : splitNl s ≠ [] := by
  cases s with
  | nil => simp [splitNl]
  | cons c rest =>
    rw [splitNl]
    by_cases hc : c = '\n'
    · simp [hc]
    · rw [if_neg hc]
      cases h : splitNl rest <;> simp

theorem mem_splitNl_no_newline {s : List Char} :
    ∀ l ∈ splitNl s, '\n' ∉ l := by
  induction s with
  | nil =>
    intro l hl
    simp [splitNl] at hl
    subst hl
    simp
  | cons c rest ih =>
    intro l hl
    rw [splitNl] at hl
    by_cases hc : c = '\n'
    · rw [if_pos hc] at hl
      rcases List.mem_cons.mp hl with rfl | hl
      · simp
      · exact ih l hl
    · rw [if_neg hc] at hl
      cases hsp : splitNl rest with
      | nil => exact absurd hsp splitNl_ne_nil
      | cons hd tl =>
        rw [hsp] at hl
        rcases List.mem_cons.mp hl with rfl | hl
        · intro hmem
          rcases List.mem_cons.mp hmem with he | hmem
          · exact hc he.symm
          · exact ih hd (hsp ▸ List.mem_cons_self hd tl) hmem
        · exact ih l (hsp ▸ List.mem_cons_of_mem hd hl)

theorem joinNl_cons_of_ne_nil {l : List Char} {ls : List (List Char)}
    (h : ls ≠ []) : joinNl (l :: ls) = l ++ '\n' :: joinNl ls := by
  cases ls with
  | nil => exact absurd rfl h
  | cons a b => rfl

theorem joinNl_cons_head {c : Char} {hd : List Char} {tl : List (List Char)} :
    joinNl ((c :: hd) :: tl) = c :: joinNl (hd :: tl) := by
  cases tl with
  | nil => rfl
  | cons a b => rfl

theorem joinNl_splitNl {s : List Char} : joinNl (splitNl s) = s := by
  induction s with
  | nil => rfl
  | cons c rest ih =>
    rw [splitNl]
    by_cases hc : c = '\n'
    · rw [if_pos hc, joinNl_cons_of_ne_nil splitNl_ne_nil, List.nil_append, ih,
        hc]
    · rw [if_neg hc]
      cases hsp : splitNl rest with
      | nil => exact absurd hsp splitNl_ne_nil
      | cons hd tl =>
        show joinNl ((c :: hd) :: tl) = c :: rest
        rw [joinNl_cons_head, ← hsp, ih]

theorem splitNl_no_newline {l : List Char} (h : '\n' ∉ l) : splitNl l = [l] := by
  induction l with
  | nil => rfl
  | cons c r ih =>
    rw [splitNl,
      if_neg (fun hc => h (by rw [← hc] ; exact List.mem_cons_self c r)),
      ih (fun hm => h (List.mem_cons_of_mem c hm))]

theorem splitNl_append_newline {l t : List Char} (h : '\n' ∉ l) :
    splitNl (l ++ '\n' :: t) = l :: splitNl t := by
  induction l with
  | nil => simp [splitNl]
  | cons c r ih =>
    rw [List.cons_append, splitNl,
      if_neg (fun hc => h (by rw [← hc] ; exact List.mem_cons_self c r)),
      ih (fun hm => h (List.mem_cons_of_mem c hm))]

theorem splitNl_joinNl {L : List (List Char)} (hL : ∀ l ∈ L, '\n' ∉ l)
    (hne : L ≠ []) : splitNl (joinNl L) = L := by
  induction L with
  | nil => exact absurd rfl hne
  | cons l ls ih =>
    cases ls with
    | nil => exact splitNl_no_newline (hL l (List.mem_cons_self _ _))
    | cons l2 ls2 =>
      rw [joinNl_cons_of_ne_nil (List.cons_ne_nil _ _),
        splitNl_append_newline (hL l (List.mem_cons_self _ _)),
        ih (fun x hx => hL x (List.mem_cons_of_mem _ hx))
          (List.cons_ne_nil _ _)]

theorem joinNl_concat_nil {L : List (List Char)} (hne : L ≠ []) :
    joinNl (L ++ [[]]) = joinNl L ++ ['\n'] := by
  induction L with
  | nil => exact absurd rfl hne
  | cons l ls ih =>
    cases ls with
    | nil => rfl
    | cons l2 ls2 =>
      rw [List.cons_append, joinNl_cons_of_ne_nil (by simp),
        joinNl_cons_of_ne_nil (List.cons_ne_nil _ _),
        ih (List.cons_ne_nil _ _)]
      simp

theorem joinNl_eq_nil {L : List (List Char)} (h : joinNl L = []) :
    L = [] ∨ L = [[]] := by
  cases L with
  | nil => exact Or.inl rfl
  | cons a ls =>
    cases ls with
    | nil =>
      right
      rw [show joinNl [a] = a from rfl] at h
      rw [h]
    | cons b m =>
      rw [joinNl_cons_of_ne_nil (List.cons_ne_nil _ _)] at h
      rcases List.append_eq_nil.mp h with ⟨_, h2⟩
      exact absurd h2 (by simp)

theorem getLast?_cons_of_ne_nil {β : Type} {a : β} {l : List β} (h : l ≠ []) :
    (a :: l).getLast? = l.getLast? := by
  cases l with
  | nil => exact absurd rfl h
  | cons b m => exact List.getLast?_cons_cons

theorem getLast?_joinNl {L : List (List Char)} {l : List Char}
    (h : L.getLast? = some l) (hl : l ≠ []) :
    (joinNl L).getLast? = l.getLast? := by
  induction L with
  | nil => exact Option.noConfusion h
  | cons a ls ih =>
    cases ls with
    | nil =>
      have : a = l := by
        have h' : some a = some l := h
        injection h'
      rw [show joinNl [a] = a from rfl, this]
    | cons b m =>
      rw [List.getLast?_cons_cons] at h
      rw [joinNl_cons_of_ne_nil (List.cons_ne_nil _ _), List.getLast?_append]
      cases hJ : joinNl (b :: m) with
      | nil =>
        rcases joinNl_eq_nil hJ with h1 | h1
        · exact absurd h1 (by simp)
        · rw [h1] at h
          have h' : some [] = some l := h
          injection h' with h''
          exact absurd h''.symm hl
      | cons j js =>
        rw [List.getLast?_cons_cons, ← hJ, ih h]
        cases hlast : l.getLast? with
        | none =>
          have hi := List.getLast?_isSome.mpr hl
          rw [hlast] at hi
          exact Bool.noConfusion hi
        | some c => rfl

theorem splitNl_getLast?_nil {s : List Char} (hs : s ≠ [])
    (h : (splitNl s).getLast? = some []) : s.getLast? = some '\n' := by
  induction s with
  | nil => exact absurd rfl hs
  | cons c rest ih =>
    rw [splitNl] at h
    by_cases hc : c = '\n'
    · rw [if_pos hc] at h
      by_cases hrest : rest = []
      · subst hrest
        simp [hc]
      · rw [getLast?_cons_of_ne_nil splitNl_ne_nil] at h
        rw [getLast?_cons_of_ne_nil hrest]
        exact ih hrest h
    · rw [if_neg hc] at h
      cases hsp : splitNl rest with
      | nil => exact absurd hsp splitNl_ne_nil
      | cons hd tl =>
        rw [hsp] at h
        cases tl with
        | nil =>
          have h' : some (c :: hd) = some [] := h
          injection h' with h''
          exact absurd h'' (by simp)
        | cons e f =>
          have h' : ((c :: hd) :: e :: f).getLast? = some [] := h
          rw [List.getLast?_cons_cons] at h'
          have hrest_ne : rest ≠ [] := by
            intro hr
            rw [hr] at hsp
            simp [splitNl] at hsp
          rw [getLast?_cons_of_ne_nil hrest_ne]
          refine ih hrest_ne ?_
          rw [hsp, List.getLast?_cons_cons]
          exact h'

/-! ## Lemmas about the `.gitignore` update loop -/

theorem mem_addIgnorePath_self {lines : List (List Char)} {pat : List Char} :
    pat ∈ addIgnorePath lines pat := by
  unfold addIgnorePath
  split
  · next h => exact h
  · exact List.mem_append_right _ (List.mem_singleton.mpr rfl)

theorem mem_addIgnorePath_of_mem {lines : List (List Char)} {pat q : List Char}
    (h : q ∈ lines) : q ∈ addIgnorePath lines pat := by
  unfold addIgnorePath
  split
  · exact h
  · exact List.mem_append_left _ h

theorem addIgnorePath_eq_self {lines : List (List Char)} {pat : List Char}
    (h : pat ∈ lines) : addIgnorePath lines pat = lines := by
  unfold addIgnorePath
  rw [if_pos h]

theorem no_newline_addIgnorePath {lines : List (List Char)} {pat : List Char}
    (hl : ∀ l ∈ lines, '\n' ∉ l) (hp : '\n' ∉ pat) :
    ∀ l ∈ addIgnorePath lines pat, '\n' ∉ l := by
  unfold addIgnorePath
  split
  · exact hl
  · intro l hmem
    rcases List.mem_append.mp hmem with h | h
    · exact hl l h
    · rw [List.mem_singleton.mp h]
      exact hp

theorem addIgnorePath_cases {lines : List (List Char)} {pat : List Char} :
    (pat ∈ lines ∧ addIgnorePath lines pat = lines)
      ∨ (addIgnorePath lines pat).getLast? = some pat := by
  unfold addIgnorePath
  split
  · next h => exact Or.inl ⟨h, rfl⟩
  · exact Or.inr (List.getLast?_concat _)

theorem gitignoreLines_eq {g : Option (List Char)} :
    gitignoreLines g =
      addIgnorePath (addIgnorePath (initialGitignoreLines g)
        ".eslintcache".data) "*.tsbuildinfo".data := rfl

theorem mem_eslintcache_gitignoreLines {g : Option (List Char)} :
    ".eslintcache".data ∈ gitignoreLines g := by
  rw [gitignoreLines_eq]
  exact mem_addIgnorePath_of_mem mem_addIgnorePath_self

theorem mem_tsbuildinfo_gitignoreLines {g : Option (List Char)} :
    "*.tsbuildinfo".data ∈ gitignoreLines g := by
  rw [gitignoreLines_eq]
  exact mem_addIgnorePath_self

theorem gitignoreLines_ne_nil {g : Option (List Char)} :
    gitignoreLines g ≠ [] :=
  List.ne_nil_of_mem mem_eslintcache_gitignoreLines

theorem no_newline_initialGitignoreLines {g : Option (List Char)} :
    ∀ l ∈ initialGitignoreLines g, '\n' ∉ l := by
  cases g with
  | none =>
    intro l hl
    exact absurd hl (List.not_mem_nil l)
  | some s => exact mem_splitNl_no_newline

theorem no_newline_gitignoreLines {g : Option (List Char)} :
    ∀ l ∈ gitignoreLines g, '\n' ∉ l := by
  rw [gitignoreLines_eq]
  exact no_newline_addIgnorePath
    (no_newline_addIgnorePath no_newline_initialGitignoreLines (by decide))
    (by decide)

theorem updateGitignore_idem {g : Option (List Char)} :
    updateGitignore (some (updateGitignore g)) = updateGitignore g := by
  have hfree := @no_newline_gitignoreLines g
  have hne := @gitignoreLines_ne_nil g
  by_cases hlast : (gitignoreLines g).getLast? = some []
  · have hout : updateGitignore g = joinNl (gitignoreLines g) := by
      rw [updateGitignore, if_pos hlast, List.append_nil]
    have hinit : initialGitignoreLines (some (updateGitignore g))
        = gitignoreLines g := by
      show splitNl (updateGitignore g) = _
      rw [hout]
      exact splitNl_joinNl hfree hne
    have hlines2 : gitignoreLines (some (updateGitignore g))
        = gitignoreLines g := by
      rw [gitignoreLines_eq, hinit,
        addIgnorePath_eq_self mem_eslintcache_gitignoreLines,
        addIgnorePath_eq_self mem_tsbuildinfo_gitignoreLines]
    rw [updateGitignore, hlines2, updateGitignore]
  · have hout : updateGitignore g = joinNl (gitignoreLines g ++ [[]]) := by
      rw [updateGitignore, if_neg hlast, joinNl_concat_nil hne]
    have hfree2 : ∀ l ∈ gitignoreLines g ++ [[]], '\n' ∉ l := by
      intro l hl
      rcases List.mem_append.mp hl with h | h
      · exact hfree l h
      · rw [List.mem_singleton.mp h]
        exact List.not_mem_nil _
    have hinit : initialGitignoreLines (some (updateGitignore g))
        = gitignoreLines g ++ [[]] := by
      show splitNl (updateGitignore g) = _
      rw [hout]
      exact splitNl_joinNl hfree2 (by simp)
    have hlines2 : gitignoreLines (some (updateGitignore g))
        = gitignoreLines g ++ [[]] := by
      rw [gitignoreLines_eq, hinit,
        addIgnorePath_eq_self
          (List.mem_append_left _ mem_eslintcache_gitignoreLines),
        addIgnorePath_eq_self
          (List.mem_append_left _ mem_tsbuildinfo_gitignoreLines)]
    rw [updateGitignore, hlines2, if_pos (List.getLast?_concat _),
      List.append_nil, joinNl_concat_nil hne, updateGitignore, if_neg hlast]

theorem updateGitignore_getLast? {g : Option (List Char)} :
    (updateGitignore g).getLast? = some '\n' := by
  by_cases hlast : (gitignoreLines g).getLast? = some []
  · rw [updateGitignore, if_pos hlast, List.append_nil]
    rcases List.getLast?_eq_some_iff.mp hlast with ⟨L', hL'⟩
    cases L' with
    | nil =>
      rw [List.nil_append] at hL'
      have hmem := @mem_eslintcache_gitignoreLines g
      rw [hL'] at hmem
      have hbad : ".eslintcache".data = ([] : List Char) :=
        List.mem_singleton.mp hmem
      exact absurd hbad (by decide)
    | cons a b =>
      rw [hL', joinNl_concat_nil (List.cons_ne_nil _ _)]
      exact List.getLast?_concat _
  · rw [updateGitignore, if_neg hlast]
    exact List.getLast?_concat _

theorem gitignoreLines_getLast?_ne_nil {g : Option (List Char)}
    (hg : ∀ s, g = some s → s.getLast? ≠ some '\n') :
    (gitignoreLines g).getLast? ≠ some [] := by
  rw [gitignoreLines_eq]
  rcases @addIgnorePath_cases
      (addIgnorePath (initialGitignoreLines g) ".eslintcache".data)
      "*.tsbuildinfo".data with ⟨_, h2⟩ | h2
  · rw [h2]
    rcases @addIgnorePath_cases (initialGitignoreLines g)
        ".eslintcache".data with ⟨hp1, h1⟩ | h1
    · rw [h1]
      cases hgc : g with
      | none =>
        show (initialGitignoreLines none).getLast? ≠ some []
        simp [initialGitignoreLines]
      | some s =>
        show (splitNl s).getLast? ≠ some []
        rw [hgc] at hp1
        have hs_ne : s ≠ [] := by
          intro hsnil
          rw [hsnil] at hp1
          simp [initialGitignoreLines, splitNl] at hp1
        intro hcon
        exact hg s hgc (splitNl_getLast?_nil hs_ne hcon)
    · intro hcon
      rw [h1] at hcon
      injection hcon with h3
      exact absurd h3 (by decide)
  · intro hcon
    rw [h2] at hcon
    injection hcon with h3
    exact absurd h3 (by decide)

theorem updateGitignore_single_newline {g : Option (List Char)}
    (hg : ∀ s, g = some s → s.getLast? ≠ some '\n') :
    (updateGitignore g).dropLast.getLast? ≠ some '\n' := by
  have hlast := gitignoreLines_getLast?_ne_nil hg
  rw [updateGitignore, if_neg hlast, List.dropLast_concat]
  obtain ⟨l, hl⟩ : ∃ l, (gitignoreLines g).getLast? = some l := by
    cases hx : (gitignoreLines g).getLast? with
    | none =>
      have hi := List.getLast?_isSome.mpr (@gitignoreLines_ne_nil g)
      rw [hx] at hi
      exact Bool.noConfusion hi
    | some l => exact ⟨l, rfl⟩
  have hlne : l ≠ [] := fun he => hlast (he ▸ hl)
  rw [getLast?_joinNl hl hlne]
  obtain ⟨ys, hys⟩ := List.getLast?_eq_some_iff.mp hl
  have hlmem : l ∈ gitignoreLines g := by
    rw [hys]
    exact List.mem_append_right _ (List.mem_singleton.mpr rfl)
  have hfree := @no_newline_gitignoreLines g l hlmem
  cases hc : l.getLast? with
  | none => simp
  | some c =>
    obtain ⟨zs, hzs⟩ := List.getLast?_eq_some_iff.mp hc
    have hcmem : c ∈ l := by
      rw [hzs]
      exact List.mem_append_right _ (List.mem_singleton.mpr rfl)
    intro hcon
    injection hcon with h4
    rw [h4] at hcmem
    exact hfree hcmem

/-! ## Lemmas about the template materializer -/

theorem hasKey_append_left {a b : JsObj α} {k : String}
    (h : hasKey a k = true) : hasKey (a ++ b) k = true := by
  rw [hasKey_iff_mem] at h ⊢
  rw [objKeys] at h ⊢
  rw [List.map_append]
  exact List.mem_append_left _ h

theorem materializeTemplates_cons {t : String × List Char}
    {ts : List (String × List Char)} {pd : Obj}
    {files : List (String × List Char)} :
    materializeTemplates (t :: ts) pd files =
      materializeTemplates ts pd
        (if skipStylelintTemplate pd t.1 then files
         else if hasKey files t.1 then files
         else files ++ [t]) := rfl

theorem getVal_materializeTemplates {templates : List (String × List Char)}
    {pd : Obj} {files : List (String × List Char)} {k : String} {c : List Char}
    (h : getVal files k = some c) :
    getVal (materializeTemplates templates pd files) k = some c := by
  induction templates generalizing files with
  | nil => exact h
  | cons t ts ih =>
    rw [materializeTemplates_cons]
    apply ih
    split
    · exact h
    · split
      · exact h
      · exact getVal_append_left h

theorem hasKey_materializeTemplates_mono {templates : List (String × List Char)}
    {pd : Obj} {files : List (String × List Char)} {k : String}
    (h : hasKey files k = true) :
    hasKey (materializeTemplates templates pd files) k = true := by
  induction templates generalizing files with
  | nil => exact h
  | cons t ts ih =>
    rw [materializeTemplates_cons]
    apply ih
    split
    · exact h
    · split
      · exact h
      · exact hasKey_append_left h

theorem hasKey_materializeTemplates_of_mem
    {templates : List (String × List Char)} {pd : Obj}
    {files : List (String × List Char)} {t : String × List Char}
    (ht : t ∈ templates) (hskip : skipStylelintTemplate pd t.1 = false) :
    hasKey (materializeTemplates templates pd files) t.1 = true := by
  induction templates generalizing files with
  | nil => cases ht
  | cons t0 ts ih =>
    rw [materializeTemplates_cons]
    rcases List.mem_cons.mp ht with rfl | ht'
    · rw [if_neg (by simp [hskip])]
      split
      · next hk => exact hasKey_materializeTemplates_mono hk
      · apply hasKey_materializeTemplates_mono
        rw [hasKey_iff_mem, objKeys, List.map_append]
        exact List.mem_append_right _ (by simp)
    · exact ih ht'

theorem materializeTemplates_eq_self {templates : List (String × List Char)}
    {pd : Obj} {files : List (String × List Char)}
    (h : ∀ t ∈ templates,
      skipStylelintTemplate pd t.1 = true ∨ hasKey files t.1 = true) :
    materializeTemplates templates pd files = files := by
  induction templates with
  | nil => rfl
  | cons t0 ts ih =>
    rw [materializeTemplates_cons]
    split
    · exact ih (fun t ht => h t (List.mem_cons_of_mem _ ht))
    · next hns =>
      rcases h t0 (List.mem_cons_self _ _) with hs | hk
      · exact absurd hs hns
      · rw [if_pos hk]
        exact ih (fun t ht => h t (List.mem_cons_of_mem _ ht))

theorem materializeTemplates_idem {templates : List (String × List Char)}
    {pd : Obj} {files : List (String × List Char)} :
    materializeTemplates templates pd (materializeTemplates templates pd files)
      = materializeTemplates templates pd files := by
  apply materializeTemplates_eq_self
  intro t ht
  cases hs : skipStylelintTemplate pd t.1
  · exact Or.inr (hasKey_materializeTemplates_of_mem ht hs)
  · exact Or.inl rfl

/-! ## Lemmas about the resolutions builder -/

theorem overrideWith_idem {u : JsObj α} {q : String × α} :
    overrideWith u (overrideWith u q) = overrideWith u q := by
  rw [@overrideWith_ext _ u (overrideWith u q), fst_overrideWith,
    snd_overrideWith]
  cases hv : getVal u q.1 <;> simp [overrideWith_ext, hv]

theorem definedEntries_append {a b : ObjU} :
    definedEntries (a ++ b) = definedEntries a ++ definedEntries b :=
  List.filterMap_append _ _ _

theorem asDefined_definedEntries {o : ObjU} :
    asDefined (definedEntries o) = o.filter (fun p => p.2.isSome) := by
  induction o with
  | nil => rfl
  | cons p rest ih =>
    rw [List.filter_cons]
    cases hv : p.2 with
    | none =>
      simp only [definedEntries, List.filterMap_cons, hv, Option.map_none',
        Option.isSome_none, Bool.false_eq_true, if_false]
      exact ih
    | some v =>
      simp only [definedEntries, List.filterMap_cons, hv, Option.map_some',
        Option.isSome_some, if_true]
      rw [← definedEntries]
      show (p.1, some v) :: asDefined (definedEntries rest) = p :: _
      rw [ih]
      congr 1
      rw [← hv]

theorem definedEntries_cons_none {p : String × Option String} {rest : ObjU}
    (h : p.2 = none) : definedEntries (p :: rest) = definedEntries rest := by
  rw [definedEntries, List.filterMap_cons, h]
  rfl

theorem definedEntries_cons_some {p : String × Option String} {rest : ObjU}
    {v : String} (h : p.2 = some v) :
    definedEntries (p :: rest) = (p.1, v) :: definedEntries rest := by
  rw [definedEntries, List.filterMap_cons, h]
  rfl

theorem definedEntries_filter_isSome {o : ObjU} :
    definedEntries (o.filter (fun p => p.2.isSome)) = definedEntries o := by
  induction o with
  | nil => rfl
  | cons p rest ih =>
    rw [List.filter_cons]
    cases hv : p.2 with
    | none =>
      simp only [hv, Option.isSome_none, Bool.false_eq_true, if_false]
      rw [ih, definedEntries_cons_none hv]
    | some v =>
      simp only [hv, Option.isSome_some, if_true]
      rw [definedEntries_cons_some hv, definedEntries_cons_some hv, ih]

theorem definedEntries_eq_nil {o : ObjU} (h : ∀ p ∈ o, p.2 = none) :
    definedEntries o = [] := by
  induction o with
  | nil => rfl
  | cons p rest ih =>
    rw [definedEntries, List.filterMap_cons, h p (List.mem_cons_self _ _)]
    exact ih (fun q hq => h q (List.mem_cons_of_mem _ hq))

theorem definedEntries_spread_restore {e u : ObjU}
    (hu : (objKeys u).Nodup) :
    definedEntries (spread (asDefined (definedEntries (spread e u))) u)
      = definedEntries (spread e u) := by
  rw [asDefined_definedEntries]
  have hmap : ((spread e u).filter (fun p => p.2.isSome)).map (overrideWith u)
      = (spread e u).filter (fun p => p.2.isSome) := by
    have hpt : ∀ p ∈ (spread e u).filter (fun p => p.2.isSome),
        overrideWith u p = p := by
      intro p hp
      have hpM : p ∈ spread e u := (List.mem_filter.mp hp).1
      rcases List.mem_append.mp hpM with hmem | hmem
      · rcases List.mem_map.mp hmem with ⟨q, _, rfl⟩
        exact overrideWith_idem
      · have hpu : p ∈ u := (List.mem_filter.mp hmem).1
        have hval : getVal u p.1 = some p.2 := getVal_eq_some_of_mem hu hpu
        rw [overrideWith_ext, hval]
        rfl
    calc ((spread e u).filter (fun p => p.2.isSome)).map (overrideWith u)
        = ((spread e u).filter (fun p => p.2.isSome)).map id :=
          List.map_congr_left hpt
      _ = _ := List.map_id _
  rw [show spread ((spread e u).filter (fun p => p.2.isSome)) u
      = ((spread e u).filter (fun p => p.2.isSome)).map (overrideWith u)
        ++ u.filter
          (fun p => !hasKey ((spread e u).filter (fun q => q.2.isSome)) p.1)
      from rfl]
  rw [hmap, definedEntries_append]
  have hnil : definedEntries (u.filter
      (fun p => !hasKey ((spread e u).filter (fun q => q.2.isSome)) p.1))
      = [] := by
    apply definedEntries_eq_nil
    intro p hp
    rcases List.mem_filter.mp hp with ⟨hpu, hnk⟩
    cases hv : p.2 with
    | none => rfl
    | some v =>
      exfalso
      have hgu : getVal u p.1 = some p.2 := getVal_eq_some_of_mem hu hpu
      have hgM : getVal (spread e u) p.1 = some (some v) := by
        rw [getVal_spread, if_pos (hasKey_of_mem hpu), hgu, hv]
      have hmem2 : (p.1, some v) ∈ (spread e u).filter (fun q => q.2.isSome) :=
        List.mem_filter.mpr ⟨mem_of_getVal_eq_some hgM, by simp⟩
      have hk := hasKey_of_mem hmem2
      rw [hk] at hnk
      exact Bool.noConfusion hnk
  rw [hnil, List.append_nil, definedEntries_filter_isSome]

theorem resolutionPins_eq {d : Obj} :
    resolutionPins d = resolutionPackageNames.map (fun n => (n, getVal d n)) :=
  rfl

theorem newResolutions_eq_spread {e : ObjU} {d : Obj} :
    newResolutions e d = spread e (spread (resolutionPins d)
      [("@typescript-eslint/utils", getVal d "@typescript-eslint/parser")]) := by
  rw [newResolutions, setKey_eq_spread_single, spread_assoc]

theorem objKeys_spread {a b : JsObj α} :
    objKeys (spread a b)
      = objKeys a ++ objKeys (b.filter (fun p => !hasKey a p.1)) := by
  rw [spread, objKeys, List.map_append, ← objKeys, ← objKeys,
    objKeys_map_overrideWith]

theorem objKeys_resolutionPins {d : Obj} :
    objKeys (resolutionPins d) = resolutionPackageNames := by
  rw [resolutionPins_eq, objKeys, List.map_map]
  have hcomp : (Prod.fst ∘ fun n : String => (n, getVal d n)) = id := rfl
  rw [hcomp, List.map_id]

theorem not_hasKey_resolutionPins_utils {d : Obj} :
    hasKey (resolutionPins d) "@typescript-eslint/utils" = false := by
  rw [resolutionPins_eq]
  simp [hasKey, List.any_map, Function.comp, resolutionPackageNames]

theorem objKeys_resolutionTarget {d : Obj} :
    objKeys (spread (resolutionPins d)
      [("@typescript-eslint/utils", getVal d "@typescript-eslint/parser")])
      = resolutionPackageNames ++ ["@typescript-eslint/utils"] := by
  rw [objKeys_spread, objKeys_resolutionPins, List.filter_cons,
    if_pos (by simp [not_hasKey_resolutionPins_utils])]
  rfl

theorem nodup_objKeys_resolutionTarget {d : Obj} :
    (objKeys (spread (resolutionPins d)
      [("@typescript-eslint/utils",
        getVal d "@typescript-eslint/parser")])).Nodup := by
  rw [objKeys_resolutionTarget]
  decide

/-! ## Unfolding lemmas for `runInstall` -/

theorem runInstall_dependencies {b : Obj} {t : List (String × List Char)}
    {s : ProjectState} :
    (runInstall b t s).packageJson.dependencies
      = s.packageJson.dependencies := rfl

theorem runInstall_devDependencies {b : Obj} {t : List (String × List Char)}
    {s : ProjectState} :
    (runInstall b t s).packageJson.devDependencies
      = some (mergedDevDependencies b (s.packageJson.devDependencies.getD [])
          (s.packageJson.dependencies.getD []) s.platform) := rfl

theorem runInstall_resolutions {b : Obj} {t : List (String × List Char)}
    {s : ProjectState} :
    (runInstall b t s).packageJson.resolutions
      = if !s.pnpmLockExists then
          some (definedEntries (newResolutions
            (asDefined (s.packageJson.resolutions.getD []))
            (mergedDevDependencies b (s.packageJson.devDependencies.getD [])
              (s.packageJson.dependencies.getD []) s.platform)))
        else s.packageJson.resolutions := rfl

theorem runInstall_pnpmLock {b : Obj} {t : List (String × List Char)}
    {s : ProjectState} :
    (runInstall b t s).pnpmLockExists = s.pnpmLockExists := rfl

theorem runInstall_files {b : Obj} {t : List (String × List Char)}
    {s : ProjectState} :
    (runInstall b t s).files
      = materializeTemplates t (s.packageJson.dependencies.getD []) s.files :=
  rfl

theorem runInstall_gitignore {b : Obj} {t : List (String × List Char)}
    {s : ProjectState} :
    (runInstall b t s).gitignore = some (updateGitignore s.gitignore) := rfl

theorem runInstall_eslintrc {b : Obj} {t : List (String × List Char)}
    {s : ProjectState} :
    (runInstall b t s).eslintrcJson = pruneLegacyConfig s.eslintrcJson := rfl

theorem runInstall_platform {b : Obj} {t : List (String × List Char)}
    {s : ProjectState} :
    (runInstall b t s).platform = s.platform := rfl

/-! ## Behaviour of the requirements table in the claim scenarios -/

theorem hasKey_newDevDeps_win32 {base deps : Obj} {name : String}
    (hn : name ∈ safeqlPackageNames) :
    hasKey (newDevDependenciesToInstall base deps "win32") name
      = hasKey base name := by
  fin_cases hn <;>
  · simp only [newDevDependenciesToInstall]
    split
    · split
      · next hA => simp at hA
      · simp [hasKey_setKey]
    · split
      · next hA => simp at hA
      · rfl

theorem getVal_newDevDeps_stylelint {base deps : Obj} {platform : String}
    {name : String}
    (hflag : (hasKey deps "react-scripts" || hasKey deps "next") = true)
    (hn : name ∈ stylelintPackageNames) :
    getVal (newDevDependenciesToInstall base deps platform) name
      = some "latest" := by
  simp only [newDevDependenciesToInstall]
  rw [if_pos hflag]
  fin_cases hn
  · rw [getVal_setKey_of_ne (by decide), getVal_setKey_of_ne (by decide),
      getVal_setKey_of_ne (by decide), getVal_setKey_of_ne (by decide),
      getVal_setKey_self]
  · rw [getVal_setKey_of_ne (by decide), getVal_setKey_of_ne (by decide),
      getVal_setKey_of_ne (by decide), getVal_setKey_self]
  · rw [getVal_setKey_of_ne (by decide), getVal_setKey_of_ne (by decide),
      getVal_setKey_self]
  · rw [getVal_setKey_of_ne (by decide), getVal_setKey_self]
  · rw [getVal_setKey_self]

theorem hasKey_newDevDeps_of_base {base deps : Obj} {platform : String}
    {k : String} (h : hasKey base k = true) :
    hasKey (newDevDependenciesToInstall base deps platform) k = true := by
  simp only [newDevDependenciesToInstall]
  split <;> split <;> simp [hasKey_setKey, h]

/-! ## Membership in the serialized resolutions -/

theorem mem_definedEntries {o : ObjU} {k v : String} :
    (k, v) ∈ definedEntries o ↔ (k, some v) ∈ o := by
  induction o with
  | nil => simp [definedEntries]
  | cons p rest ih =>
    cases hv : p.2 with
    | none =>
      rw [definedEntries_cons_none hv]
      constructor
      · exact fun h => List.mem_cons_of_mem _ (ih.mp h)
      · intro h
        rcases List.mem_cons.mp h with he | h
        · rw [← he] at hv
          exact Option.noConfusion hv
        · exact ih.mpr h
    | some w =>
      rw [definedEntries_cons_some hv]
      constructor
      · intro h
        rcases List.mem_cons.mp h with he | h
        · injection he with h1 h2
          refine List.mem_cons.mpr (Or.inl ?_)
          have hp : p = (p.1, p.2) := rfl
          rw [hp, hv, ← h1, ← h2]
        · exact List.mem_cons_of_mem _ (ih.mp h)
      · intro h
        rcases List.mem_cons.mp h with he | h
        · refine List.mem_cons.mpr (Or.inl ?_)
          have hp : p = (p.1, p.2) := rfl
          rw [hp, hv] at he
          injection he with h1 h2
          injection h2 with h3
          rw [← h1, ← h3]
        · exact List.mem_cons_of_mem _ (ih.mpr h)

theorem objKeys_asDefined {o : Obj} : objKeys (asDefined o) = objKeys o := by
  rw [asDefined, objKeys, List.map_map]
  rfl

theorem hasKey_asDefined {o : Obj} {k : String} :
    hasKey (asDefined o) k = hasKey o k := by
  refine bool_eq_of_iff ?_
  rw [hasKey_iff_mem, hasKey_iff_mem, objKeys_asDefined]

/-! ## The claims -/

/-- C3: No-clobber — for every template-destination file name, if a file with
that name already exists in the project root before a run, with arbitrary
content, then after the full run its content is byte-identical: the template
materializer skips every already-existing destination file and no other stage
of the pipeline modifies the project-root file map. -/
theorem no_clobber (basePeerDependencies : Obj)
    (templates : List (String × List Char)) (s : ProjectState)
    (name : String) (content : List Char)
    (h : getVal s.files name = some content) :
    getVal (runInstall basePeerDependencies templates s).files name
      = some content := by
  rw [runInstall_files]
  exact getVal_materializeTemplates h

/-- Witness for C3: a pre-existing `tsconfig.json` with user content survives
a run whose template directory carries a different `tsconfig.json`. -/
theorem no_clobber_witness :
    getVal (runInstall [] [("tsconfig.json", "template".data)]
      { sampleState with files := [("tsconfig.json", "user".data)] }).files
      "tsconfig.json" = some "user".data :=
  no_clobber [] [("tsconfig.json", "template".data)]
    { sampleState with files := [("tsconfig.json", "user".data)] }
    "tsconfig.json" "user".data (by decide)

/-- C4 counterexample: the claim asserts strict ascending key order for every
input devDependency mapping, but `Object.entries(...).sort()` compares the
strings `key + "," + value`; with the existing devDependencies
`{"a": "x", "a!": "y"}` the merged mapping lists `"a!"` before `"a"`, since
`'!'` sorts below `','` — the keys are not in ascending lexicographic order. -/
theorem devDeps_sort_counterexample :
    ¬ List.Pairwise (fun a b : String => a.data < b.data)
      (objKeys (mergedDevDependencies [] [("a", "x"), ("a!", "y")] []
        "linux")) := by
  decide

/-- C4 (amended): for every input with unique keys, a key of the computed new
requirements takes the new requirement's value in the merged mapping (forced
upgrade), and a key not in the new requirements keeps its existing value;
when additionally every key of the existing mapping and of the base table
consists of characters sorting above `','` (true of every valid npm package
name), the merged mapping's keys are in strict ascending lexicographic
order. -/
theorem devDeps_merge_sorted (base existing deps : Obj) (platform : String)
    (hne : (objKeys existing).Nodup) (hnb : (objKeys base).Nodup) :
    ((∀ k ∈ objKeys existing, goodKey k) → (∀ k ∈ objKeys base, goodKey k) →
      List.Pairwise (fun a b : String => a.data < b.data)
        (objKeys (mergedDevDependencies base existing deps platform)))
    ∧ (∀ k, hasKey (newDevDependenciesToInstall base deps platform) k = true →
        getVal (mergedDevDependencies base existing deps platform) k
          = getVal (newDevDependenciesToInstall base deps platform) k)
    ∧ (∀ k, hasKey (newDevDependenciesToInstall base deps platform) k = false →
        getVal (mergedDevDependencies base existing deps platform) k
          = getVal existing k) := by
  refine ⟨fun hge hgb => sorted_objKeys_mergedDevDeps hne hnb hge hgb,
    fun k hk => ?_, fun k hk => ?_⟩
  · rw [getVal_mergedDevDeps hne hnb, if_pos hk]
  · rw [getVal_mergedDevDeps hne hnb, if_neg (by simp [hk])]

/-- Witness for C4: on a project with devDependencies
`{"zod": "^3", "eslint": "^8"}` and base table `{"eslint": "^9"}`, the merged
mapping is sorted, the base requirement wins for `eslint`, and `zod` keeps its
value. -/
theorem devDeps_merge_sorted_witness :
    List.Pairwise (fun a b : String => a.data < b.data)
      (objKeys (mergedDevDependencies [("eslint", "^9")]
        [("zod", "^3"), ("eslint", "^8")] [] "linux"))
    ∧ getVal (mergedDevDependencies [("eslint", "^9")]
        [("zod", "^3"), ("eslint", "^8")] [] "linux") "eslint" = some "^9"
    ∧ getVal (mergedDevDependencies [("eslint", "^9")]
        [("zod", "^3"), ("eslint", "^8")] [] "linux") "zod" = some "^3" := by
  have h := devDeps_merge_sorted [("eslint", "^9")]
    [("zod", "^3"), ("eslint", "^8")] [] "linux" (by decide) (by decide)
  refine ⟨h.1 (by decide) (by decide), ?_, ?_⟩
  · rw [h.2.1 "eslint" (by decide)]
    decide
  · rw [h.2.2 "zod" (by decide)]
    decide

/-- C5: Platform exclusion — when the project's dependencies contain
`postgres` and the platform is `win32`, the SafeQL packages
`@ts-safeql/eslint-plugin` and `libpg-query` are not added to the merged
devDependency mapping (provided, as for the real base table, that neither the
base requirement table nor the existing devDependencies already carry them). -/
theorem safeql_win32_excluded (base existing deps : Obj)
    (hpostgres : hasKey deps "postgres" = true)
    (hb1 : hasKey base "@ts-safeql/eslint-plugin" = false)
    (hb2 : hasKey base "libpg-query" = false)
    (he1 : hasKey existing "@ts-safeql/eslint-plugin" = false)
    (he2 : hasKey existing "libpg-query" = false) :
    hasKey (mergedDevDependencies base existing deps "win32")
      "@ts-safeql/eslint-plugin" = false
    ∧ hasKey (mergedDevDependencies base existing deps "win32")
      "libpg-query" = false := by
  constructor <;>
  · rw [hasKey_mergedDevDeps, hasKey_newDevDeps_win32 (by decide)]
    simp [hb1, hb2, he1, he2]

/-- Witness for C5: the scenario `dependencies: {"postgres": "^3.0.0"}` on
`win32` with base table `{"eslint": "^9"}` and no devDependencies. -/
theorem safeql_win32_excluded_witness :
    hasKey (mergedDevDependencies [("eslint", "^9")] []
      [("postgres", "^3.0.0")] "win32") "@ts-safeql/eslint-plugin" = false
    ∧ hasKey (mergedDevDependencies [("eslint", "^9")] []
      [("postgres", "^3.0.0")] "win32") "libpg-query" = false :=
  safeql_win32_excluded [("eslint", "^9")] [] [("postgres", "^3.0.0")]
    (by decide) (by decide) (by decide) (by decide) (by decide)

/-- C6: UI-framework scenario — with `dependencies: {"next": "^13.0.0"}`, no
existing devDependencies, and any platform, the merged devDependencies contain
every package of the base table, each of the five Stylelint packages at
version `"latest"`, and the keys are in strict ascending lexicographic order
(the base table, like the real `peerDependencies`, having unique valid npm
keys). -/
theorem next_project_devDependencies (base : Obj) (platform : String)
    (hplat : platform ≠ "win32") (hnb : (objKeys base).Nodup)
    (hgb : ∀ k ∈ objKeys base, goodKey k) :
    (∀ k ∈ objKeys base,
      hasKey (mergedDevDependencies base [] [("next", "^13.0.0")] platform) k
        = true)
    ∧ (∀ name ∈ stylelintPackageNames,
        getVal (mergedDevDependencies base [] [("next", "^13.0.0")] platform)
          name = some "latest")
    ∧ List.Pairwise (fun a b : String => a.data < b.data)
        (objKeys (mergedDevDependencies base [] [("next", "^13.0.0")]
          platform)) := by
  have hne : (objKeys ([] : Obj)).Nodup := List.nodup_nil
  have hge : ∀ k ∈ objKeys ([] : Obj), goodKey k :=
    fun k hk => absurd hk (List.not_mem_nil k)
  refine ⟨fun k hk => ?_, fun name hn => ?_,
    sorted_objKeys_mergedDevDeps hne hnb hge hgb⟩
  · rw [hasKey_mergedDevDeps,
      hasKey_newDevDeps_of_base (hasKey_iff_mem.mpr hk), Bool.or_true]
  · have hflag : (hasKey ([("next", "^13.0.0")] : Obj) "react-scripts"
        || hasKey ([("next", "^13.0.0")] : Obj) "next") = true := by decide
    have hv := @getVal_newDevDeps_stylelint base _ platform _ hflag hn
    rw [getVal_mergedDevDeps hne hnb, if_pos (hasKey_of_getVal_eq_some hv), hv]

/-- Witness for C6: base table `{"eslint": "^9"}` on `linux`. -/
theorem next_project_devDependencies_witness :
    hasKey (mergedDevDependencies [("eslint", "^9")] []
      [("next", "^13.0.0")] "linux") "eslint" = true
    ∧ getVal (mergedDevDependencies [("eslint", "^9")] []
      [("next", "^13.0.0")] "linux") "stylelint" = some "latest"
    ∧ List.Pairwise (fun a b : String => a.data < b.data)
        (objKeys (mergedDevDependencies [("eslint", "^9")] []
          [("next", "^13.0.0")] "linux")) := by
  have h := next_project_devDependencies [("eslint", "^9")] "linux"
    (by decide) (by decide) (by decide)
  exact ⟨h.1 "eslint" (by decide), h.2.1 "stylelint" (by decide), h.2.2⟩

/-- C7 counterexample: the claim asserts exactly one trailing newline for
every existing ignore-list content, but when both required patterns are
already present and the content ends in several newlines, the update loop
appends nothing, the trailing blank lines survive the split/join round trip,
and the written content still ends in two newlines. -/
theorem gitignore_trailing_counterexample :
    updateGitignore (some ".eslintcache\n*.tsbuildinfo\n\n".data)
      = ".eslintcache\n*.tsbuildinfo\n\n".data
    ∧ (updateGitignore
        (some ".eslintcache\n*.tsbuildinfo\n\n".data)).getLast? = some '\n'
    ∧ ((updateGitignore
        (some ".eslintcache\n*.tsbuildinfo\n\n".data)).dropLast).getLast?
      = some '\n' := by
  decide

/-- C7 (amended): the written ignore-list content is the lines joined with
newline and always ends with at least one newline; it ends with exactly one
trailing newline whenever the original content did not itself end with a
newline (in particular for a missing file) — a single newline is appended
exactly when the last line is nonempty, but pre-existing trailing blank lines
are preserved, not collapsed. -/
theorem gitignore_trailing_newline (g : Option (List Char)) :
    (updateGitignore g).getLast? = some '\n'
    ∧ ((∀ s, g = some s → s.getLast? ≠ some '\n') →
        (updateGitignore g).dropLast.getLast? ≠ some '\n') :=
  ⟨updateGitignore_getLast?, fun hg => updateGitignore_single_newline hg⟩

/-- Witness for C7: a one-line ignore file without trailing newline gets
exactly one trailing newline. -/
theorem gitignore_trailing_newline_witness :
    (updateGitignore (some "node_modules".data)).getLast? = some '\n'
    ∧ (updateGitignore (some "node_modules".data)).dropLast.getLast?
      ≠ some '\n' := by
  have h := gitignore_trailing_newline (some "node_modules".data)
  refine ⟨h.1, h.2 ?_⟩
  intro s hs
  injection hs with hs'
  rw [← hs']
  decide

/-- C8: Missing ignore-list scenario — when `.gitignore` does not exist before
the run, the run writes it (absence is swallowed, not a fault) and its content
is exactly `.eslintcache` and `*.tsbuildinfo`, one per line, with a single
trailing newline. -/
theorem missing_gitignore_created (basePeerDependencies : Obj)
    (templates : List (String × List Char)) (s : ProjectState)
    (h : s.gitignore = none) :
    (runInstall basePeerDependencies templates s).gitignore
      = some (".eslintcache\n*.tsbuildinfo\n".data) := by
  rw [runInstall_gitignore, h]
  have hval : updateGitignore none = ".eslintcache\n*.tsbuildinfo\n".data := by
    decide
  rw [hval]

/-- Witness for C8: the sample project state has no `.gitignore`. -/
theorem missing_gitignore_created_witness :
    (runInstall [] [] sampleState).gitignore
      = some (".eslintcache\n*.tsbuildinfo\n".data) :=
  missing_gitignore_created [] [] sampleState rfl

/-- C9 counterexample: the claim says content differing from the boilerplate
by even one character is left untouched, but the code compares the *trimmed*
content: appending a newline to the boilerplate still gets the file deleted. -/
theorem legacy_config_trim_counterexample :
    pruneLegacyConfig (some (nextBoilerplate ++ ['\n'])) = none
    ∧ nextBoilerplate ++ ['\n'] ≠ nextBoilerplate := by
  decide

/-- C9 (amended): the legacy config file is deleted exactly when its content
trimmed of leading/trailing whitespace equals the fixed boilerplate — in
particular content exactly equal to the boilerplate is deleted; content whose
trimmed form differs is left untouched; and a missing file is swallowed and
treated as nothing to prune. -/
theorem legacy_config_pruning (c : List Char) :
    (c = nextBoilerplate → pruneLegacyConfig (some c) = none)
    ∧ (jsTrim c ≠ nextBoilerplate → pruneLegacyConfig (some c) = some c)
    ∧ pruneLegacyConfig none = none := by
  refine ⟨?_, ?_, rfl⟩
  · intro h
    rw [h]
    show (if jsTrim nextBoilerplate = nextBoilerplate then none
      else some nextBoilerplate) = none
    rw [if_pos (by decide)]
  · intro h
    show (if jsTrim c = nextBoilerplate then none else some c) = some c
    rw [if_neg h]

/-- Witness for C9: exact boilerplate content is deleted; content with an
extra leading character is untouched. -/
theorem legacy_config_pruning_witness :
    pruneLegacyConfig (some nextBoilerplate) = none
    ∧ pruneLegacyConfig (some ('x' :: nextBoilerplate))
      = some ('x' :: nextBoilerplate) :=
  ⟨(legacy_config_pruning nextBoilerplate).1 rfl,
   (legacy_config_pruning ('x' :: nextBoilerplate)).2.1 (by decide)⟩

/-- C10: the manifest's runtime `dependencies` field is never modified: the
written manifest carries exactly the input `dependencies` (in particular an
absent field stays absent), and an absent field is read as the empty mapping —
running on a manifest without `dependencies` produces the same state, apart
from that absent field, as running on one with an empty `dependencies`. -/
theorem dependencies_frame (basePeerDependencies : Obj)
    (templates : List (String × List Char)) (s : ProjectState) :
    (runInstall basePeerDependencies templates s).packageJson.dependencies
      = s.packageJson.dependencies
    ∧ runInstall basePeerDependencies templates
        { s with packageJson := { s.packageJson with dependencies := none } }
      = { runInstall basePeerDependencies templates
            { s with packageJson :=
                { s.packageJson with dependencies := some [] } } with
          packageJson := { (runInstall basePeerDependencies templates
            { s with packageJson :=
                { s.packageJson with dependencies := some [] } }).packageJson
            with dependencies := none } } :=
  ⟨rfl, rfl⟩

/-- C2 counterexample: the claim asserts that every key of the produced
resolutions map exists in the final devDependency mapping (or is the linked
`@typescript-eslint/utils`), with its value copied from there; but the builder
spreads the project's pre-existing resolutions into the result, so a
pre-existing user resolution such as `left-pad` survives with its own value
even though it is not a devDependency. -/
theorem resolutions_foreign_key_counterexample :
    ("left-pad", "1.0.0") ∈
      ((runInstall [] [] { sampleState with packageJson :=
        { dependencies := none, devDependencies := none,
          resolutions := some [("left-pad", "1.0.0")] } }
        ).packageJson.resolutions.getD [])
    ∧ hasKey ((runInstall [] [] { sampleState with packageJson :=
        { dependencies := none, devDependencies := none,
          resolutions := some [("left-pad", "1.0.0")] } }
        ).packageJson.devDependencies.getD []) "left-pad" = false
    ∧ "left-pad" ∉ resolutionPackageNames
    ∧ "left-pad" ≠ "@typescript-eslint/utils" := by
  decide

/-- C2 (amended): on the Yarn path, every entry of the written resolutions map
whose key is not a pre-existing resolution key is one of the fixed pinned
packages — and then its key exists in the final devDependency mapping with
exactly that value copied — or it is the linked `@typescript-eslint/utils`,
whose value is copied from the final devDependency entry of
`@typescript-eslint/parser`. -/
theorem resolutions_added_keys (basePeerDependencies : Obj)
    (templates : List (String × List Char)) (s : ProjectState)
    (hyarn : s.pnpmLockExists = false)
    (hres : (objKeys (s.packageJson.resolutions.getD [])).Nodup)
    (k v : String)
    (hmem : (k, v) ∈
      ((runInstall basePeerDependencies templates
        s).packageJson.resolutions.getD []))
    (hnew : hasKey (s.packageJson.resolutions.getD []) k = false) :
    (k ∈ resolutionPackageNames
      ∧ getVal ((runInstall basePeerDependencies templates
          s).packageJson.devDependencies.getD []) k = some v)
    ∨ (k = "@typescript-eslint/utils"
      ∧ getVal ((runInstall basePeerDependencies templates
          s).packageJson.devDependencies.getD [])
          "@typescript-eslint/parser" = some v) := by
  rw [runInstall_resolutions, hyarn] at hmem
  simp only [Bool.not_false, if_true, Option.getD_some] at hmem
  rw [runInstall_devDependencies, Option.getD_some]
  rw [newResolutions_eq_spread, mem_definedEntries] at hmem
  set D := mergedDevDependencies basePeerDependencies
    (s.packageJson.devDependencies.getD [])
    (s.packageJson.dependencies.getD []) s.platform with hD
  set e0 := s.packageJson.resolutions.getD [] with he0
  set u := spread (resolutionPins D)
    [("@typescript-eslint/utils", getVal D "@typescript-eslint/parser")]
    with hu
  have hval : getVal (spread (asDefined e0) u) k = some (some v) :=
    getVal_eq_some_of_mem
      (nodup_objKeys_spread (by rw [objKeys_asDefined]; exact hres)
        nodup_objKeys_resolutionTarget) hmem
  rw [getVal_spread] at hval
  by_cases hku : hasKey u k = true
  · rw [if_pos hku] at hval
    rw [hu, getVal_spread] at hval
    by_cases hksingle : hasKey
        ([("@typescript-eslint/utils", getVal D "@typescript-eslint/parser")]
          : ObjU) k = true
    · rw [if_pos hksingle] at hval
      have hk_utils : k = "@typescript-eslint/utils" := by
        have hmem3 := hasKey_iff_mem.mp hksingle
        simp [objKeys] at hmem3
        exact hmem3
      right
      refine ⟨hk_utils, ?_⟩
      rw [hk_utils] at hval
      rw [getVal_cons, if_pos rfl] at hval
      exact Option.some.inj hval
    · rw [if_neg hksingle] at hval
      left
      have hmem2 := mem_of_getVal_eq_some hval
      rw [resolutionPins_eq] at hmem2
      rcases List.mem_map.mp hmem2 with ⟨n, hn, heq⟩
      injection heq with h1 h2
      constructor
      · rw [← h1]
        exact hn
      · rw [← h1]
        exact h2
  · rw [if_neg hku] at hval
    exfalso
    have hk0 := hasKey_of_getVal_eq_some hval
    rw [hasKey_asDefined] at hk0
    rw [hk0] at hnew
    exact Bool.noConfusion hnew

/-- Witness for C2: with base table `{"@typescript-eslint/parser": "^8"}` and
an empty project, the written resolutions pin `@typescript-eslint/parser` to
its devDependency value; applying the theorem to that entry yields the left
disjunct. -/
theorem resolutions_added_keys_witness :
    ((("@typescript-eslint/parser", "^8") ∈
      ((runInstall [("@typescript-eslint/parser", "^8")] []
        sampleState).packageJson.resolutions.getD []))
    ∧ (("@typescript-eslint/parser" ∈ resolutionPackageNames
        ∧ getVal ((runInstall [("@typescript-eslint/parser", "^8")] []
            sampleState).packageJson.devDependencies.getD [])
            "@typescript-eslint/parser" = some "^8")
      ∨ ("@typescript-eslint/parser" = "@typescript-eslint/utils"
        ∧ getVal ((runInstall [("@typescript-eslint/parser", "^8")] []
            sampleState).packageJson.devDependencies.getD [])
            "@typescript-eslint/parser" = some "^8"))) := by
  constructor
  · decide
  · exact resolutions_added_keys [("@typescript-eslint/parser", "^8")] []
      sampleState rfl (by decide) "@typescript-eslint/parser" "^8"
      (by decide) (by decide)

/-- C1: Idempotence — running the installer a second time on the state
produced by a first run changes nothing: the devDependency mapping is the
same (merging the requirement set again and re-sorting is the identity), the
written resolutions map is unchanged, no template file is re-created, and the
ignore list gains no duplicate entries; keys of parsed JSON objects are
unique, which the hypotheses record for the two input tables involved. -/
theorem pipeline_idempotent (basePeerDependencies : Obj)
    (templates : List (String × List Char)) (s : ProjectState)
    (hnb : (objKeys basePeerDependencies).Nodup)
    (hne : (objKeys (s.packageJson.devDependencies.getD [])).Nodup) :
    (runInstall basePeerDependencies templates
        (runInstall basePeerDependencies templates
          s)).packageJson.devDependencies
      = (runInstall basePeerDependencies templates
          s).packageJson.devDependencies
    ∧ (runInstall basePeerDependencies templates
        (runInstall basePeerDependencies templates s)).packageJson.resolutions
      = (runInstall basePeerDependencies templates s).packageJson.resolutions
    ∧ (runInstall basePeerDependencies templates
        (runInstall basePeerDependencies templates s)).files
      = (runInstall basePeerDependencies templates s).files
    ∧ (runInstall basePeerDependencies templates
        (runInstall basePeerDependencies templates s)).gitignore
      = (runInstall basePeerDependencies templates s).gitignore := by
  refine ⟨?_, ?_, ?_, ?_⟩
  · show some (mergedDevDependencies basePeerDependencies
        (mergedDevDependencies basePeerDependencies
          (s.packageJson.devDependencies.getD [])
          (s.packageJson.dependencies.getD []) s.platform)
        (s.packageJson.dependencies.getD []) s.platform)
      = some (mergedDevDependencies basePeerDependencies
          (s.packageJson.devDependencies.getD [])
          (s.packageJson.dependencies.getD []) s.platform)
    exact congrArg some (mergedDevDeps_idem hne hnb)
  · simp only [runInstall_resolutions, runInstall_pnpmLock,
      runInstall_dependencies, runInstall_devDependencies, runInstall_platform]
    cases hp : s.pnpmLockExists
    · simp only [Bool.not_false, if_true, Option.getD_some]
      rw [mergedDevDeps_idem hne hnb]
      simp only [newResolutions_eq_spread]
      exact congrArg some
        (definedEntries_spread_restore nodup_objKeys_resolutionTarget)
    · simp only [Bool.not_true, Bool.false_eq_true, if_false]
  · simp only [runInstall_files, runInstall_dependencies]
    exact materializeTemplates_idem
  · simp only [runInstall_gitignore]
    exact congrArg some updateGitignore_idem

/-- Witness for C1: a second run on the sample project with a one-entry base
table reproduces the first run's devDependencies, resolutions, files and
ignore list. -/
theorem pipeline_idempotent_witness :
    (runInstall [("eslint", "^9")] [("tsconfig.json", "T".data)]
        (runInstall [("eslint", "^9")] [("tsconfig.json", "T".data)]
          sampleState)).packageJson.devDependencies
      = (runInstall [("eslint", "^9")] [("tsconfig.json", "T".data)]
          sampleState).packageJson.devDependencies
    ∧ (runInstall [("eslint", "^9")] [("tsconfig.json", "T".data)]
        (runInstall [("eslint", "^9")] [("tsconfig.json", "T".data)]
          sampleState)).packageJson.resolutions
      = (runInstall [("eslint", "^9")] [("tsconfig.json", "T".data)]
          sampleState).packageJson.resolutions
    ∧ (runInstall [("eslint", "^9")] [("tsconfig.json", "T".data)]
        (runInstall [("eslint", "^9")] [("tsconfig.json", "T".data)]
          sampleState)).files
      = (runInstall [("eslint", "^9")] [("tsconfig.json", "T".data)]
          sampleState).files
    ∧ (runInstall [("eslint", "^9")] [("tsconfig.json", "T".data)]
        (runInstall [("eslint", "^9")] [("tsconfig.json", "T".data)]
          sampleState)).gitignore
      = (runInstall [("eslint", "^9")] [("tsconfig.json", "T".data)]
          sampleState).gitignore :=
  pipeline_idempotent [("eslint", "^9")] [("tsconfig.json", "T".data)]
    sampleState (by decide) (by decide)

end InstallScript











